import Mathlib

/-!
# Verification of the MF-Plugin orchestration core

A shallow embedding, in Lean 4, of the MF-Plugin (iml130/mf_plugin) core:
the expression evaluator (`mf_plugin/helpers.py`), the token-flow runtime
(`mf_plugin/petri_net/logic.py`), the transport-order net construction
(`mf_plugin/petri_net/generator.py`) and the orchestration layer
(`mf_plugin/scheduler.py`, `mf_plugin_demo.py`), together with theorems
settling the specification's testable properties.

Python values are embedded as an inductive `Value`; Python dictionaries as
insertion-ordered association lists; Python exceptions as `Except PyErr`;
the wall clock and uuid4 as explicit inputs (a time-stamp value, a fresh-id
counter).  External collaborators from the parent PFDL repository (the base
scheduler and net classes, `snakes`) are not part of the plugin's sources;
where their behaviour matters it is modelled from the specification and
marked `Modelled from the spec:` in the doc comment.
-/

namespace MFPlugin

/-! ## Values and expressions

`helpers.py` dispatches on the Python runtime type of an expression object:
`int`/`float`/`bool` are literals, `str` is a quoted string literal or an
identifier, `list` is an attribute access, `tuple` is a rule call,
a two-entry `dict` is a unary operation, a `dict` with `left="("` and
`right=")"` is a parenthesised expression and any other `dict` is a binary
operation.  The embedding gives each of those shapes a constructor.
Floats are not embedded (no claim mentions them); numbers are `Int`.
-/

/-- A primitive Python value: `None`, a number, a boolean or a string. -/
inductive Value
  | none
  | int (n : Int)
  | bool (b : Bool)
  | str (s : String)
deriving DecidableEq, Repr

/-- An expression in the shape `execute_mf_plugin_expression` dispatches on.
Attribute-access lists and rule-call arguments hold arbitrary Python
values (`Value`), because parameter substitution can write a bound value
into them; in a freshly parsed program they are all `Value.str`. -/
inductive Expr
  | lit (v : Value)
  | str (s : String)
  | attr (path : List Value)
  | ruleCall (name : String) (args : List Value)
  | unOp (op : String) (value : Expr)
  | paren (inner : Expr)
  | binOp (left : Expr) (op : String) (right : Expr)
deriving DecidableEq, Repr

/-- A Python exception, as far as the embedded code can raise one. -/
inductive PyErr
  | keyError (k : String)
  | typeError (msg : String)
  | nameError
  | stopIteration
  | recursionError
deriving DecidableEq, Repr

/-- A `Rule` (model/rule.py): ordered parameter dict (name to default;
a parameter without a default carries Python `None`) and a list of
expression bodies. -/
structure RuleDef where
  name : String
  parameters : List (String × Value)
  expressions : List Expr
deriving DecidableEq, Repr

/-- An instance's attribute dict (name to value). -/
abbrev Attrs := List (String × Value)

/-- The live instance table: name to attribute dict. -/
abbrev Instances := List (String × Attrs)

/-- The rule table: name to definition. -/
abbrev Rules := List (String × RuleDef)

/-- A substitution dict mapping rule-parameter names to bound values. -/
abbrev Subs := List (String × Value)

/-- Embeds a substituted-in Python value back into expression position:
numbers/booleans/`None` behave as literals, strings as string expressions. -/
def Value.toExpr : Value → Expr
  | .str s => Expr.str s
  | v => Expr.lit v

/-! ## Parameter substitution (`substitute_parameter_in_expression`)

The Python function both *returns* a substituted expression and, for the
attribute-access (`list`) shape only, *mutates* the stored list in place
(`expression[0] = subs[instance_name]`).  Two functions embed the two
effects: `substResult` is the returned expression, `substEffect` is what
the stored expression object graph looks like after the call (dict shapes
are rebuilt into fresh dicts, so stored dict nodes are unchanged, but a
list reachable below them is mutated in place). -/

/-- Substitute the head of an attribute-access list (the in-place
`expression[0] = subs[instance_name]` assignment). -/
def substHead (subs : Subs) : List Value → List Value
  | [] => []
  | x :: rest =>
    match x with
    | .str s => (match subs.lookup s with
                 | some v => v
                 | none => Value.str s) :: rest
    | _ => x :: rest

/-- Substitute one rule-call argument (`if rule_parameter in sub_list`). -/
def substArg (subs : Subs) (x : Value) : Value :=
  match x with
  | .str s => match subs.lookup s with
              | some v => v
              | none => .str s
  | _ => x

/-- Rebuilding `new_params` as a Python dict: keys are inserted in order,
a duplicate key keeps its first position (and its value stays `None`). -/
def dictKeyInsert (acc : List Value) (x : Value) : List Value :=
  if x ∈ acc then acc else acc ++ [x]

/-- The expression `substitute_parameter_in_expression` returns. -/
def substResult (subs : Subs) : Expr → Expr
  | .lit v => .lit v
  | .str s => match subs.lookup s with
              | some v => v.toExpr
              | none => .str s
  | .attr path =>
    match substHead subs path with
    | [x] => x.toExpr
    | path' => .attr path'
  | .ruleCall n args => .ruleCall n ((args.map (substArg subs)).foldl dictKeyInsert [])
  | .unOp op v => .unOp op (substResult subs v)
  | .paren inner => .paren (substResult subs inner)
  | .binOp l op r => .binOp (substResult subs l) op (substResult subs r)

/-- The state of the *stored* expression object graph after
`substitute_parameter_in_expression` ran on it: only the head cell of an
attribute-access list is written in place; strings, tuples and rebuilt
dict shapes leave the stored nodes untouched, but the mutation reaches
every list below a dict node because the recursion visits the stored
child objects themselves. -/
def substEffect (subs : Subs) : Expr → Expr
  | .lit v => .lit v
  | .str s => .str s
  | .attr path => .attr (substHead subs path)
  | .ruleCall n args => .ruleCall n args
  | .unOp op v => .unOp op (substEffect subs v)
  | .paren inner => .paren (substEffect subs inner)
  | .binOp l op r => .binOp (substEffect subs l) op (substEffect subs r)

/-! ## Attribute access (`get_attribute_access_value`) -/

/-- Walk the attribute segments after the head instance: every
intermediate segment dereferences into another named instance, the final
segment yields the attribute value; an empty segment list yields Python
`None` (the loop body never runs).  List-valued attributes (an attribute
access stored in an attribute) are outside the embedding; no claim and no
shipped program stores one. -/
def walkAttrs (instances : Instances) : Attrs → List Value → Except PyErr Value
  | _, [] => .ok .none
  | inst, [a] =>
    match a with
    | .str s => match inst.lookup s with
                | some v => .ok v
                | none => .error (.keyError s)
    | _ => .error (.keyError "non-string attribute key")
  | inst, a :: rest =>
    match a with
    | .str s =>
      match inst.lookup s with
      | some (.str nm) =>
        match instances.lookup nm with
        | some inst' => walkAttrs instances inst' rest
        | none => .error (.keyError nm)
      | some _ => .error (.keyError "non-string instance key")
      | none => .error (.keyError s)
    | _ => .error (.keyError "non-string attribute key")

/-- `get_attribute_access_value`: the head of the list names an instance,
the remaining segments are walked by `walkAttrs`. -/
def getAttributeAccessValue (path : List Value) (instances : Instances) :
    Except PyErr Value :=
  match path with
  | [] => .error (.typeError "list index out of range")
  | head :: rest =>
    match head with
    | .str nm =>
      match instances.lookup nm with
      | some inst => walkAttrs instances inst rest
      | none => .error (.keyError nm)
    | _ => .error (.keyError "non-string instance name")

/-! ## Binary operators

`execute_mf_plugin_expression` obtains the operator function from the
parent repository's `pfdl_helpers.parse_operator` and applies it to the
two evaluated operands, re-raising any `TypeError` as a `TypeError` with a
larger message.  Modelled from the spec: `parse_operator` (external PFDL
helper, not part of this plugin's sources) maps the operator token to the
corresponding Python operator function; the table below gives those
functions their Python semantics — equality/inequality never raise across
types, ordered comparison and arithmetic over a number and a string raise
`TypeError`, booleans count as the numbers 0/1. -/

inductive BOp
  | lt | le | gt | ge | eq | ne | add | sub | mul
deriving DecidableEq, Repr

def parseOperator : String → Except PyErr BOp
  | "<" => .ok .lt
  | "<=" => .ok .le
  | ">" => .ok .gt
  | ">=" => .ok .ge
  | "==" => .ok .eq
  | "!=" => .ok .ne
  | "+" => .ok .add
  | "-" => .ok .sub
  | "*" => .ok .mul
  | op => .error (.keyError op)

/-- Python numeric view: `bool` is a subtype of `int`. -/
def Value.toNum : Value → Option Int
  | .int n => some n
  | .bool b => some (if b then 1 else 0)
  | _ => Option.none

/-- Python `==`: numeric comparison when both operands are numbers
(`True == 1`), string comparison for two strings, `None == None`,
and `False` across incompatible types — never an error. -/
def pyEq (a b : Value) : Bool :=
  match a.toNum, b.toNum with
  | some x, some y => x == y
  | _, _ =>
    match a, b with
    | .str s, .str t => s == t
    | .none, .none => true
    | _, _ => false

/-- Python string comparison is lexicographic on code points. -/
def strLt (s t : String) : Bool := decide (s < t)

/-- Apply a Python comparison of kind `<`/`<=`/`>`/`>=`. -/
def pyCompare (op : BOp) (a b : Value) : Except PyErr Value :=
  match a.toNum, b.toNum with
  | some x, some y =>
    .ok (.bool (match op with
                | .lt => x < y | .le => x ≤ y | .gt => y < x | _ => y ≤ x))
  | _, _ =>
    match a, b with
    | .str s, .str t =>
      .ok (.bool (match op with
                  | .lt => strLt s t | .le => !strLt t s
                  | .gt => strLt t s | _ => !strLt s t))
    | _, _ => .error (.typeError "comparison not supported between operand types")

/-- Apply the operator function returned by `parse_operator`, with Python
semantics; incompatible operand types raise `TypeError` exactly where
Python does. -/
def applyOp (op : BOp) (a b : Value) : Except PyErr Value :=
  match op with
  | .eq => .ok (.bool (pyEq a b))
  | .ne => .ok (.bool (!pyEq a b))
  | .lt | .le | .gt | .ge => pyCompare op a b
  | .add =>
    match a.toNum, b.toNum with
    | some x, some y => .ok (.int (x + y))
    | _, _ =>
      match a, b with
      | .str s, .str t => .ok (.str (s ++ t))
      | _, _ => .error (.typeError "unsupported operand types for +")
  | .sub =>
    match a.toNum, b.toNum with
    | some x, some y => .ok (.int (x - y))
    | _, _ => .error (.typeError "unsupported operand types for -")
  | .mul =>
    match a.toNum, b.toNum with
    | some x, some y => .ok (.int (x * y))
    | _, _ =>
      match a, b with
      | .str s, .int n => .ok (.str (String.join (List.replicate n.toNat s)))
      | .int n, .str s => .ok (.str (String.join (List.replicate n.toNat s)))
      | _, _ => .error (.typeError "unsupported operand types for *")

/-- Python truthiness, used by `not` and by `evaluate_rule`'s
`if not execute_mf_plugin_expression(...)`. -/
def truthy : Value → Bool
  | .none => false
  | .int n => n != 0
  | .bool b => b
  | .str s => s != ""

/-- Strip the quote characters a PFDL string literal is stored with
(`expression.replace('"', "")` removes every quote character). -/
def stripQuotes (s : String) : String := ⟨s.data.filter (fun c => c ≠ '"')⟩

/-- `expression.startswith('"')`. -/
def startsWithQuote (s : String) : Bool := s.data.head? == some '"'

/-- `expression.endswith('"')`. -/
def endsWithQuote (s : String) : Bool := s.data.getLast? == some '"'

/-! ## Expression execution (`execute_mf_plugin_expression` and
`evaluate_rule`)

The two Python functions are mutually recursive through the rule table;
the embedding bounds the recursion with explicit fuel standing for the
Python call stack (exhausted fuel is Python's `RecursionError`). -/

/-- Bind a rule call's positional arguments to the rule's declared
parameters: parameter `i` receives argument `i`, or its declared default
when the call has fewer than `i + 1` arguments
(`subs[rule_parameter] = list(rule_call_parameters)[i]`). -/
def bindParams (params : List (String × Value)) (args : List Value) : Subs :=
  params.enum.map fun (i, p) => (p.1, args.getD i p.2)

/-- `evaluate_rule`'s loop over the rule's expression bodies: substitute
the bound values into each body and conjoin the truthiness of the
results, stopping at the first false one. -/
def evalRuleExprs (exec1 : Expr → Except PyErr Value) (subs : Subs) :
    List Expr → Except PyErr Bool
  | [] => .ok true
  | e :: es => do
    let v ← exec1 (substResult subs e)
    if truthy v then evalRuleExprs exec1 subs es else .ok false

/-- `evaluate_rule`, generic in the expression executor: look the rule up,
bind the call's arguments (the keys of the call's parameter dict, in
order) to the declared parameters, and evaluate every substituted body. -/
def evaluateRuleCore (rules : Rules) (exec1 : Expr → Except PyErr Value)
    (name : String) (args : List Value) : Except PyErr Bool :=
  match rules.lookup name with
  | Option.none => .error (.keyError name)
  | some rule =>
    let subs := if rule.parameters.length > 0 then bindParams rule.parameters args else []
    evalRuleExprs exec1 subs rule.expressions

/-- `execute_mf_plugin_expression`.  Fuel bounds the mutual recursion with
`evaluate_rule`; every claim instantiates it large enough. -/
def execute (instances : Instances) (rules : Rules) : Nat → Expr → Except PyErr Value
  | 0, _ => .error .recursionError
  | fuel + 1, e =>
    match e with
    | .lit v => .ok v
    | .str s =>
      if startsWithQuote s && endsWithQuote s then .ok (.str (stripQuotes s))
      else .ok (.str s)
    | .attr path => do
      let v ← getAttributeAccessValue path instances
      match v with
      | .str s => .ok (.str (stripQuotes s))
      | v => .ok v
    | .ruleCall n args =>
      (evaluateRuleCore rules (execute instances rules fuel) n args).map Value.bool
    | .unOp _ v => do
      let r ← execute instances rules fuel v
      .ok (.bool (!truthy r))
    | .paren inner => execute instances rules fuel inner
    | .binOp l op r => do
      let f ← parseOperator op
      let a ← execute instances rules fuel l
      let b ← execute instances rules fuel r
      applyOp f a b

/-- `evaluate_rule` as called from the scheduler: the rule call is the
tuple `(name, parameter-dict)`, whose keys are the positional argument
values. -/
def evaluateRule (instances : Instances) (rules : Rules) (fuel : Nat)
    (name : String) (args : List Value) : Except PyErr Bool :=
  evaluateRuleCore rules (execute instances rules fuel) name args

/-- The substitution dict a call with arguments `args` builds for `rule`
(`subs` in `evaluate_rule`). -/
def subsOfCall (rule : RuleDef) (args : List Value) : Subs :=
  if rule.parameters.length > 0 then bindParams rule.parameters args else []

/-- The stored expression bodies after `evaluate_rule`'s loop ran over
them: each body is substituted in place just before its substituted copy
is executed, and the loop returns at the first body that evaluates falsy
(or raises), so that body is the last one substituted and every later
stored body is untouched (helpers.py 144-148). -/
def bodiesAfterCall (exec1 : Expr → Except PyErr Value) (subs : Subs) :
    List Expr → List Expr
  | [] => []
  | e :: es =>
    match exec1 (substResult subs e) with
    | .ok v =>
      if truthy v then substEffect subs e :: bodiesAfterCall exec1 subs es
      else substEffect subs e :: es
    | .error _ => substEffect subs e :: es

/-- The stored rule object after `evaluate_rule` ran a call with
arguments `args` on it: the visited bodies show the in-place effects
`substEffect` describes (the returned substituted copies are dropped,
the stored list cells keep any overwritten head), bodies past the
short-circuit point are unchanged. -/
def ruleAfterCall (instances : Instances) (rules : Rules) (fuel : Nat)
    (rule : RuleDef) (args : List Value) : RuleDef :=
  { rule with expressions :=
      (bodiesAfterCall (execute instances rules fuel) (subsOfCall rule args)
        rule.expressions) }

/-- A two-body rule whose first body evaluates false: `evaluate_rule`'s
loop returns before the second body's parameter-headed attribute list is
ever substituted. -/
def shortCircuitRule : RuleDef :=
  ⟨"rSC", [("w", Value.none)], [.lit (.bool false), .attr [.str "w", .str "x"]]⟩

/-- An expression contains an attribute-access list whose head is a
parameter name bound by `subs` to a value other than that very name —
exactly the cells `substitute_parameter_in_expression` overwrites
observably. -/
def hasAttrHit (subs : Subs) : Expr → Bool
  | .attr (x :: _) =>
    match x with
    | .str s => match subs.lookup s with
                | some v => v != .str s
                | Option.none => false
    | _ => false
  | .unOp _ v => hasAttrHit subs v
  | .paren inner => hasAttrHit subs inner
  | .binOp l _ r => hasAttrHit subs l || hasAttrHit subs r
  | _ => false

/-- The `isHeavy(weight=100)` rule of the specification's scenario, body
`weight > 50`. -/
def isHeavyRule : RuleDef :=
  ⟨"isHeavy", [("weight", .int 100)], [.binOp (.str "weight") ">" (.lit (.int 50))]⟩

def scenarioRules : Rules := [("isHeavy", isHeavyRule)]

/-! ## The token-flow runtime (`petri_net/logic.py`)

The net as `snakes` holds it: places are identified by name (the
generator names them with uuid strings), a transition consumes and
produces per positive integer arc weights, and the marking maps each
place name to its token count.

The base PFDL `PetriNetLogic.fire_event` (parent repository, called
first) is abstracted as the boolean input `baseFired`; per the spec the
MF-Plugin event kinds are resolved only through the activation-index
(`uuids_per_task`), so for them the base class reports failure.
`evaluate_petri_net` is the snakes-driven cascade of the base class —
modelled from the spec: repeatedly fire the first enabled transition
until none is enabled, bounded here by fuel. -/

structure SNet where
  places : List String
  transitions : List (List (String × Nat) × List (String × Nat))

abbrev Marking := String → Nat

def addTokens (m : Marking) (p : String) (k : Nat) : Marking :=
  fun q => if q = p then m q + k else m q

def enabledB (m : Marking) (t : List (String × Nat) × List (String × Nat)) : Bool :=
  t.1.all fun pw => pw.2 ≤ m pw.1

def consumeArcs (m : Marking) (arcs : List (String × Nat)) : Marking :=
  arcs.foldl (fun m' pw q => if q = pw.1 then m' q - pw.2 else m' q) m

def produceArcs (m : Marking) (arcs : List (String × Nat)) : Marking :=
  arcs.foldl (fun m' pw q => if q = pw.1 then m' q + pw.2 else m' q) m

def fireTransition (m : Marking) (t : List (String × Nat) × List (String × Nat)) :
    Marking :=
  produceArcs (consumeArcs m t.1) t.2

/-- Modelled from the spec: on success add one token, then repeatedly
scan transitions, firing the first enabled one, until no transition is
enabled (the token-flow cascade of §4.3). -/
def evaluatePetriNet (net : SNet) : Nat → Marking → Marking
  | 0, m => m
  | fuel + 1, m =>
    match net.transitions.find? (enabledB m) with
    | some t => evaluatePetriNet net fuel (fireTransition m t)
    | Option.none => m

/-- The four place names `generate_*_order_step` records for an order
step in `uuids_per_task` (an absent gate is recorded as the empty
string, which is not a place of the net). -/
structure StepPlaces where
  movedToLocation : String
  actionExecuted : String
  startedBy : String
  finishedBy : String
deriving DecidableEq, Repr

/-- Python dict access `entry[agv_status]` on a step's place dict. -/
def StepPlaces.get (sp : StepPlaces) : String → Option String
  | "moved_to_location" => some sp.movedToLocation
  | "action_executed" => some sp.actionExecuted
  | "started_by" => some sp.startedBy
  | "finished_by" => some sp.finishedBy
  | _ => Option.none

/-- A value of the per-task dict `uuids_per_task[task_uuid]`: the keys
`"started_by"`/`"finished_by"` map to a place name, an order-step uuid
key maps to its step's place dict. -/
inductive TaskDictVal
  | place (nm : String)
  | step (sp : StepPlaces)
deriving DecidableEq, Repr

abbrev TaskDict := List (String × TaskDictVal)

/-- The activation-index `uuids_per_task`. -/
abbrev UuidsPerTask := List (String × TaskDict)

/-- Python `event.data[...]`: a missing key raises `KeyError`. -/
def reqKey (k : String) : Option String → Except PyErr String
  | some v => .ok v
  | Option.none => .error (.keyError k)

def lookupE {α : Type} (l : List (String × α)) (k : String) : Except PyErr α :=
  match l.lookup k with
  | some v => .ok v
  | Option.none => .error (.keyError k)

/-- The data mapping of an event (§6 event schema). -/
structure EventData where
  task : Option String := Option.none
  orderStep : Option String := Option.none
  orderStepUuid : Option String := Option.none
  status : Option String := Option.none
  instanceName : Option String := Option.none
  serviceUuid : Option String := Option.none
  newValues : List (String × Value) := []
deriving DecidableEq, Repr

structure Event where
  eventType : String
  data : EventData
deriving DecidableEq, Repr

/-- The resolution part of `PetriNetLogic.fire_event` (logic.py 38-54):
`event.data["task"]` is read first (KeyError when absent), then the event
kind picks the index path; an unhandled kind leaves `name_in_petri_net`
unbound (`NameError`); indexing into a step entry that is a plain string
is Python's `TypeError`. -/
def resolveEventPlace (upt : UuidsPerTask) (ev : Event) : Except PyErr TaskDictVal := do
  let task ← reqKey "task" ev.data.task
  if ev.eventType = "started_by" then
    match ev.data.orderStep with
    | some os => do
      let td ← lookupE upt task
      match ← lookupE td os with
      | .step sp => pure (.place sp.startedBy)
      | .place _ => throw (.typeError "string indices must be integers")
    | Option.none => do
      let td ← lookupE upt task
      lookupE td "started_by"
  else if ev.eventType = "finished_by" then
    match ev.data.orderStep with
    | some os => do
      let td ← lookupE upt task
      match ← lookupE td os with
      | .step sp => pure (.place sp.finishedBy)
      | .place _ => throw (.typeError "string indices must be integers")
    | Option.none => do
      let td ← lookupE upt task
      lookupE td "finished_by"
  else if ev.eventType = "order_step_update" then do
    let os ← reqKey "order_step_uuid" ev.data.orderStepUuid
    let status ← reqKey "status" ev.data.status
    let td ← lookupE upt task
    match ← lookupE td os with
    | .step sp =>
      match sp.get status with
      | some nm => pure (.place nm)
      | Option.none => throw (.keyError status)
    | .place _ => throw (.typeError "string indices must be integers")
  else
    throw .nameError

/-- `PetriNetLogic.fire_event`: if the base class fired the event, done;
otherwise resolve the target place through the activation-index, and when
the resolved name is a place of the net, add one token and run the
cascade (returning true); a resolved name that is not a place returns
false with no state change. -/
def logicFireEvent (baseFired : Bool) (net : SNet) (fuel : Nat)
    (upt : UuidsPerTask) (m : Marking) (ev : Event) : Except PyErr (Marking × Bool) :=
  if baseFired then .ok (m, true)
  else do
    match ← resolveEventPlace upt ev with
    | .step _ => throw (.typeError "unhashable type")
    | .place nm =>
      if nm ∈ net.places then
        pure (evaluatePetriNet net fuel (addTokens m nm 1), true)
      else
        pure (m, false)


/-! ## A concrete transport-order-step state (for the runtime claims)

The net `generate_transport_order_step` builds for one step without
gates: `ts` = step started, `mov` = moved-to-location, `wfa` =
waiting-for-action, `ae` = action-executed, `fin` = step finished; the
first transition consumes `ts` and `mov` and produces `wfa`; the last
transition consumes `wfa` and `ae` and produces `fin`. -/

def tosNet : SNet :=
  ⟨["ts", "fin", "mov", "wfa", "ae"],
   [([("ts", 1), ("mov", 1)], [("wfa", 1)]),
    ([("wfa", 1), ("ae", 1)], [("fin", 1)])]⟩

/-- The activation-index entry the generator records for that step under
task `T` and order-step uuid `S` (no gates: empty strings). -/
def tosUpt : UuidsPerTask := [("T", [("S", .step ⟨"mov", "ae", "", ""⟩)])]

/-- The step has started and awaits its move. -/
def tosM0 : Marking := fun p => if p = "ts" then 1 else 0

/-- The `moved_to_location` update event for that step. -/
def movedEvent : Event :=
  ⟨"order_step_update",
   { task := some "T", orderStepUuid := some "S", status := some "moved_to_location" }⟩

/-- Marking after the first `moved_to_location` event: the step's
transition has consumed the started and moved tokens and parked one in
waiting-for-action. -/
def tosM1 : Marking := fun p => if p = "wfa" then 1 else 0


/-! ## The orchestration layer (`scheduler.py`)

`Scheduler.update_instance` mutates the named instance and re-evaluates
every active task's and active order-step's gate expressions, firing the
matching `started_by`/`finished_by` event for each that evaluates true;
`Scheduler.fire_event` adds the instance-update fallback on top of the
base scheduler.  Python's mutable `self` with exceptions is embedded as
`PyOutcome`: a raise carries the state as mutated up to the raise point.
The wall-clock stamp `current_time - self.starting_time` is the explicit
input `tNow`.  Gate events are synthesized with the activation's uuid and
applied to the runtime in the same call (`self.fire_event(...)`; for
`started_by`/`finished_by` events the instance-update fallback of
`Scheduler.fire_event` can never trigger, so the effect is exactly the
runtime call).  User-registered listener callbacks perform no
orchestrator-state mutation and are not embedded. -/

/-- A task activation as `update_instance` consults it: uuid and the
static definition's gate expressions. -/
structure TaskRec where
  uuid : String
  startedByExpr : Option Expr
  finishedByExpr : Option Expr
deriving DecidableEq, Repr

/-- An order-step activation as `update_instance` consults it. -/
structure StepRec where
  uuid : String
  startedByExpr : Option Expr
  finishedByExpr : Option Expr
deriving DecidableEq, Repr

/-- The orchestrator state `update_instance` reads and writes. -/
structure OrchState where
  instances : Instances
  rules : Rules
  activeTasks : List TaskRec
  activeOrderSteps : List StepRec
  upt : UuidsPerTask
  net : SNet
  marking : Marking

/-- The outcome of running a Python method on the mutable scheduler:
either a normal return or a raised exception; both carry the state as
mutated up to that point. -/
inductive PyOutcome (α : Type)
  | ok (st : OrchState) (v : α)
  | raised (st : OrchState) (err : PyErr)

def PyOutcome.andThen {α β : Type} :
    PyOutcome α → (OrchState → α → PyOutcome β) → PyOutcome β
  | .ok st v, f => f st v
  | .raised st e, _ => .raised st e

def PyOutcome.result {α : Type} : PyOutcome α → Option α
  | .ok _ v => some v
  | .raised _ _ => Option.none

def PyOutcome.state {α : Type} : PyOutcome α → OrchState
  | .ok st _ => st
  | .raised st _ => st

def PyOutcome.errorOf {α : Type} : PyOutcome α → Option PyErr
  | .ok _ _ => Option.none
  | .raised _ e => some e

/-- Python dict assignment `d[k] = v`: overwrite in place, or append the
key when it is new. -/
def dictSet {α : Type} (l : List (String × α)) (k : String) (v : α) :
    List (String × α) :=
  if (l.lookup k).isSome then l.map (fun kv => if kv.1 = k then (k, v) else kv)
  else l ++ [(k, v)]

/-- One gate check of the `update_instance` sweep: when the construct
declares the gate and its expression evaluates true, synthesize the gate
event and apply it to the runtime (the event's task field comes from the
loop's `task_api` variable, `Option.none` when the task loop never ran —
Python's unbound `task_api` is a `NameError`).  An evaluation error or a
resolution error aborts the sweep with the state mutated so far. -/
def fireIfGate (fuel : Nat) (st : OrchState) (g : Option Expr)
    (lastTask : Option String) (mk : String → Event) : PyOutcome Unit :=
  match g with
  | Option.none => .ok st ()
  | some e =>
    match execute st.instances st.rules fuel e with
    | .error err => .raised st err
    | .ok v =>
      if truthy v then
        match lastTask with
        | Option.none => .raised st .nameError
        | some tu =>
          match logicFireEvent false st.net fuel st.upt st.marking (mk tu) with
          | .ok (m', _) => .ok { st with marking := m' } ()
          | .error err => .raised st err
      else .ok st ()

/-- The loop over `self.active_tasks` in `update_instance`. -/
def taskGateSweep (fuel : Nat) (st : OrchState) : List TaskRec → PyOutcome Unit
  | [] => .ok st ()
  | t :: ts =>
    (fireIfGate fuel st t.startedByExpr (some t.uuid)
        (fun tu => ⟨"started_by", { task := some tu }⟩)).andThen fun st1 _ =>
    (fireIfGate fuel st1 t.finishedByExpr (some t.uuid)
        (fun tu => ⟨"finished_by", { task := some tu }⟩)).andThen fun st2 _ =>
    taskGateSweep fuel st2 ts

/-- The loop over `self.active_order_steps` in `update_instance`: the
synthesized events name `task_api.uuid`, the task loop's leftover
variable — the last active task, not the step's own task context. -/
def stepGateSweep (fuel : Nat) (lastTask : Option String) (st : OrchState) :
    List StepRec → PyOutcome Unit
  | [] => .ok st ()
  | s :: ss =>
    (fireIfGate fuel st s.startedByExpr lastTask
        (fun tu => ⟨"started_by", { task := some tu, orderStep := some s.uuid }⟩)).andThen
      fun st1 _ =>
    (fireIfGate fuel st1 s.finishedByExpr lastTask
        (fun tu => ⟨"finished_by", { task := some tu, orderStep := some s.uuid }⟩)).andThen
      fun st2 _ =>
    stepGateSweep fuel lastTask st2 ss

/-- The instance's attribute dict after `update_instance`'s mutation
phase: the `"time"` stamp, then every known key from `new_values`
(unknown keys are only reported). -/
def mutatedAttrs (tNow : Value) (attrs : Attrs)
    (newValues : List (String × Value)) : Attrs :=
  newValues.foldl
    (fun a kv => if (a.lookup kv.1).isSome then dictSet a kv.1 kv.2 else a)
    (dictSet attrs "time" tNow)

/-- `Scheduler.update_instance` (scheduler.py 175-240): unknown instance
name returns false untouched; otherwise stamp `"time"`, write every known
attribute key from `new_values` (unknown keys are only reported), then
re-evaluate all active tasks' and active order-steps' gate expressions,
firing each satisfied gate's event through the runtime, and return
true. -/
def updateInstance (fuel : Nat) (tNow : Value) (st : OrchState)
    (instanceName : String) (newValues : List (String × Value)) : PyOutcome Bool :=
  match st.instances.lookup instanceName with
  | Option.none => .ok st false
  | some attrs =>
    let attrs2 := mutatedAttrs tNow attrs newValues
    let st1 := { st with instances := dictSet st.instances instanceName attrs2 }
    (taskGateSweep fuel st1 st1.activeTasks).andThen fun st2 _ =>
    (stepGateSweep fuel (st1.activeTasks.getLast?.map TaskRec.uuid) st2
        st2.activeOrderSteps).andThen fun st3 _ =>
    .ok st3 true

/-- `Scheduler.fire_event`'s tail (scheduler.py 254-260), generic in the
outcome of the base class call (`pfdl_scheduler.scheduler.Scheduler
.fire_event`, parent repository): when the base reports the event
unresolved and it is an instance update, apply the update directly and
return its result. -/
def schedFireEventWith (fuel : Nat) (tNow : Value) (baseOutcome : PyOutcome Bool)
    (ev : Event) : PyOutcome Bool :=
  match baseOutcome with
  | .raised st e => .raised st e
  | .ok st b =>
    if !b && ev.eventType == "instance_update" then
      match ev.data.instanceName with
      | some nm => updateInstance fuel tNow st nm ev.data.newValues
      | Option.none => .raised st (.keyError "instance_name")
    else .ok st b

/-- Python's `input_str.split(",")`: no separator collapsing, an empty
string yields one empty field. -/
def splitCommaChars : List Char → List (List Char)
  | [] => [[]]
  | c :: cs =>
    if c = ',' then [] :: splitCommaChars cs
    else
      match splitCommaChars cs with
      | g :: gs => (c :: g) :: gs
      | [] => [[c]]

def splitComma (s : String) : List String :=
  (splitCommaChars s.data).map fun l => ⟨l⟩

/-- What the demo loop does with one raw input line
(`DemoInterface.start`, mf_plugin_demo.py 171-191): two comma-separated
fields become a service/status event, three become an
`order_step_update`, anything else goes to `Scheduler.fire_event` as a
raw string (which parses it generically via `Event.from_json`). -/
inductive DemoAction
  | fireStruct (ev : Event)
  | fireRaw (s : String)
deriving DecidableEq, Repr

def demoDispatch (s : String) : DemoAction :=
  match splitComma s with
  | [serviceUuid, eventType] =>
    .fireStruct ⟨eventType, { serviceUuid := some serviceUuid }⟩
  | [orderStepUuid, task, status] =>
    .fireStruct ⟨"order_step_update",
      { orderStepUuid := some orderStepUuid, task := some task, status := some status }⟩
  | _ => .fireRaw s

/-- `Scheduler.fire_event` on a raw string (scheduler.py 248-251):
deserialize it with the external `Event.from_json` (modelled from the
spec: a generic parser of the serialized event schema, `Option.none`
for an unparseable string, which makes the call return false), then
proceed as for a structured event.  `base` abstracts the base class
call's outcome on the given state. -/
def schedFireEventStr (fromJson : String → Option Event) (fuel : Nat) (tNow : Value)
    (base : Event → OrchState → PyOutcome Bool) (st : OrchState) (s : String) :
    PyOutcome Bool :=
  match fromJson s with
  | Option.none => .ok st false
  | some ev => schedFireEventWith fuel tNow (base ev st) ev

/-! ## The gate round-trip scenario (C3, C8)

A task gated by `weight > 50` over instance `I`, standing at its
started-by gadget: the generator's `generate_started_by` built the
waiting place `W` and the satisfied place `S`, whose guard transition
produces the downstream place `D`; the activation-index maps the task's
`"started_by"` key to `S`. -/

def gateNet : SNet := ⟨["W", "S", "D"], [([("W", 1), ("S", 1)], [("D", 1)])]⟩

def gateExpr : Expr := .binOp (.attr [.str "I", .str "weight"]) ">" (.lit (.int 50))

/-- The same gate with a type-incompatible comparison (`weight` against a
string literal), for the evaluation-error claim. -/
def gateExprBad : Expr := .binOp (.attr [.str "I", .str "weight"]) "<" (.str "\"abc\"")

/-- Two active tasks for the abort-mid-sweep behaviour: task `TA`'s gate
is satisfiable and fires, task `TB`'s gate raises the type error. -/
def gateState2 (w0 : Int) : OrchState :=
  { instances := [("I", [("weight", .int w0), ("time", .int 0)])]
    rules := []
    activeTasks := [⟨"TA", some gateExpr, Option.none⟩,
                    ⟨"TB", some gateExprBad, Option.none⟩]
    activeOrderSteps := []
    upt := [("TA", [("started_by", .place "S")])]
    net := gateNet
    marking := fun p => if p = "W" then 1 else 0 }

def gateState (t : String) (g : Expr) (w0 : Int) : OrchState :=
  { instances := [("I", [("weight", .int w0), ("time", .int 0)])]
    rules := []
    activeTasks := [⟨t, some g, Option.none⟩]
    activeOrderSteps := []
    upt := [(t, [("started_by", .place "S")])]
    net := gateNet
    marking := fun p => if p = "W" then 1 else 0 }


/-! ## Order re-entry id minting (`Scheduler.on_order_started`)

A loop re-entry mints fresh ids for the order and its order steps and
relocates the activation-index entries (scheduler.py 280-320).  Python's
`str(uuid.uuid4())` and the `order_step_test_id_counter` branch are both
fresh-id supplies; the embedding models the supply as a counter `nextId`
handing out ids the state has never contained (the uuid4 branch is
collision-free by assumption, the test-id branch is literally this
counter).  Entry payloads of the per-task dict are opaque (`ε`). -/

/-- The slice of scheduler state `on_order_started` touches: the
generator's order-step api list (id and step name), the activation-index
restricted to the relevant shape, and the fresh-id supply. -/
structure LoopState (ε : Type) where
  steps : List (Nat × String)
  upt : List (Nat × List (Nat × ε))
  nextId : Nat

/-- The `OrderAPI` fields `on_order_started` reads and writes. -/
structure OrderApiRec where
  uuid : Nat
  inLoop : Bool
  firstLoopIteration : Bool
  taskUuid : Nat
  pickupNames : List String
  deliveryNames : List String
deriving DecidableEq, Repr

/-- Python dict assignment on a Nat-keyed dict. -/
def dictSetK {α : Type} (l : List (Nat × α)) (k : Nat) (v : α) : List (Nat × α) :=
  if (l.lookup k).isSome then l.map (fun kv => if kv.1 = k then (k, v) else kv)
  else l ++ [(k, v)]

/-- `next(api for api in order_steps if api.order_step.name == name)`
followed by `api.uuid = fresh`: yield the first matching api's old uuid
and the list with that api's uuid overwritten; no match is Python's
`StopIteration`. -/
def replaceFirstStep (steps : List (Nat × String)) (name : String) (newId : Nat) :
    Option (Nat × List (Nat × String)) :=
  match steps with
  | [] => Option.none
  | (u, nm) :: rest =>
    if nm = name then some (u, (newId, nm) :: rest)
    else (replaceFirstStep rest name newId).map fun p => (p.1, (u, nm) :: p.2)

/-- `uuid_dict[new] = uuid_dict.pop(old)`: drop the old key, append the
fresh key with the old entry. -/
def dictRelocate {ε : Type} (d : List (Nat × ε)) (oldId newId : Nat) :
    List (Nat × ε) :=
  match d.lookup oldId with
  | some v => (d.filter fun kv => kv.1 ≠ oldId) ++ [(newId, v)]
  | Option.none => d

/-- The loop body over one order-step name: re-mint the first matching
step api's uuid and, when the task has an activation-index dict holding
the old uuid, relocate that entry to the new uuid. -/
def processStepName {ε : Type} (st : LoopState ε) (taskUuid : Nat) (name : String) :
    Except PyErr (LoopState ε) :=
  match replaceFirstStep st.steps name st.nextId with
  | Option.none => .error .stopIteration
  | some (oldId, steps') =>
    match st.upt.lookup taskUuid with
    | some d =>
      .ok { steps := steps',
            upt := dictSetK st.upt taskUuid (dictRelocate d oldId st.nextId),
            nextId := st.nextId + 1 }
    | Option.none => .ok { steps := steps', upt := st.upt, nextId := st.nextId + 1 }

def processStepNames {ε : Type} (st : LoopState ε) (taskUuid : Nat) :
    List String → Except PyErr (LoopState ε)
  | [] => .ok st
  | n :: ns => do processStepNames (← processStepName st taskUuid n) taskUuid ns

/-- `Scheduler.on_order_started`: outside a loop, nothing; first loop
iteration, clear the flag and reuse the build-time ids; later iterations,
mint a fresh uuid for the order and then for every pickup and delivery
order step, relocating their activation-index entries.  (Registered
listener callbacks carry no orchestrator state and are not embedded.) -/
def onOrderStarted {ε : Type} (st : LoopState ε) (oapi : OrderApiRec) :
    Except PyErr (LoopState ε × OrderApiRec) :=
  if oapi.inLoop then
    if oapi.firstLoopIteration then
      .ok (st, { oapi with firstLoopIteration := false })
    else
      let oapi1 := { oapi with uuid := st.nextId }
      let st1 : LoopState ε := { st with nextId := st.nextId + 1 }
      (processStepNames st1 oapi.taskUuid (oapi.pickupNames ++ oapi.deliveryNames)).map
        fun st' => (st', oapi1)
  else .ok (st, oapi)

/-- Every id the state holds was handed out by the supply: the counter
bounds them all.  The scheduler establishes this at build time (every
build-time id comes from the same supply) and `on_order_started` must
preserve it. -/
def LoopState.wf {ε : Type} (st : LoopState ε) : Prop :=
  (∀ p ∈ st.steps, p.1 < st.nextId) ∧
  ∀ q ∈ st.upt, q.1 < st.nextId ∧ ∀ r ∈ q.2, r.1 < st.nextId


/-! ## The transport-order net (`generate_transport_order`)

For a transport order with `N` pickup and `M` delivery steps (each step
without gates or follow-up task), the generator builds exactly this net
(generator.py 327-577): the caller's first connection produces the
transport-started place consumed by the branch transition; the branch
transition produces every pickup step's started place; each step's first
transition consumes its started and moved-to-location places and produces
its waiting-for-action place; each step's last transition consumes its
waiting-for-action and action-executed places and produces its finished
place; the synchronizing transition consumes one token from every pickup
finished place and produces every delivery started place; the caller's
second connection (`final`) consumes one token from every delivery
finished place and continues the surrounding task (place `next`).
Markings are embedded over this indexed place type; the external events
(`moved_to_location`, `action_executed`) add one token to the matching
place, and the runtime then fires enabled transitions (§4.3); the
reachability relation below closes over any interleaving of permitted
event injections and transition firings, which covers the deterministic
cascade the code runs. -/

inductive SPlace
  | started | moved | waiting | acted | finished
deriving DecidableEq, Repr

inductive TOPlace (N M : Nat)
  | tStart
  | pickup (i : Fin N) (s : SPlace)
  | delivery (j : Fin M) (s : SPlace)
  | next
deriving DecidableEq

abbrev TOMarking (N M : Nat) := TOPlace N M → Nat

inductive TOTrans (N M : Nat)
  | branch
  | pFirst (i : Fin N)
  | pLast (i : Fin N)
  | sync
  | dFirst (j : Fin M)
  | dLast (j : Fin M)
  | final
deriving DecidableEq

/-- Input arc weights, as the generator wires them (`add_input`). -/
def pre {N M : Nat} : TOTrans N M → TOPlace N M → Nat
  | .branch, .tStart => 1
  | .pFirst i, .pickup i' .started => if i = i' then 1 else 0
  | .pFirst i, .pickup i' .moved => if i = i' then 1 else 0
  | .pLast i, .pickup i' .waiting => if i = i' then 1 else 0
  | .pLast i, .pickup i' .acted => if i = i' then 1 else 0
  | .sync, .pickup _ .finished => 1
  | .dFirst j, .delivery j' .started => if j = j' then 1 else 0
  | .dFirst j, .delivery j' .moved => if j = j' then 1 else 0
  | .dLast j, .delivery j' .waiting => if j = j' then 1 else 0
  | .dLast j, .delivery j' .acted => if j = j' then 1 else 0
  | .final, .delivery _ .finished => 1
  | _, _ => 0

/-- Output arc weights (`add_output`). -/
def post {N M : Nat} : TOTrans N M → TOPlace N M → Nat
  | .branch, .pickup _ .started => 1
  | .pFirst i, .pickup i' .waiting => if i = i' then 1 else 0
  | .pLast i, .pickup i' .finished => if i = i' then 1 else 0
  | .sync, .delivery _ .started => 1
  | .dFirst j, .delivery j' .waiting => if j = j' then 1 else 0
  | .dLast j, .delivery j' .finished => if j = j' then 1 else 0
  | .final, .next => 1
  | _, _ => 0

def enabledT {N M : Nat} (t : TOTrans N M) (m : TOMarking N M) : Prop :=
  ∀ p, pre t p ≤ m p

/-- Atomic firing: consume all inputs, produce all outputs. -/
def fireT {N M : Nat} (t : TOTrans N M) (m : TOMarking N M) : TOMarking N M :=
  fun p => m p - pre t p + post t p

/-- One external event deposits one token. -/
def incT {N M : Nat} (p : TOPlace N M) (m : TOMarking N M) : TOMarking N M :=
  fun q => if q = p then m q + 1 else m q

/-- The caller's first connection has fired: one token in the
transport-started place. -/
def initialTO (N M : Nat) : TOMarking N M
  | .tStart => 1
  | _ => 0

/-- The order has finished: one token past the second connection. -/
def finalTO (N M : Nat) : TOMarking N M
  | .next => 1
  | _ => 0

/-- Markings reachable from the start by firing enabled transitions and
injecting `moved_to_location`/`action_executed` events for permitted
pickup branches (`allowP`) and delivery branches (`allowD`). -/
inductive TOReach (N M : Nat) (allowP : Fin N → Prop) (allowD : Fin M → Prop) :
    TOMarking N M → Prop
  | init : TOReach N M allowP allowD (initialTO N M)
  | fire (t : TOTrans N M) (m : TOMarking N M) :
      TOReach N M allowP allowD m → enabledT t m →
      TOReach N M allowP allowD (fireT t m)
  | pickupMoved (i : Fin N) (m : TOMarking N M) : allowP i →
      TOReach N M allowP allowD m →
      TOReach N M allowP allowD (incT (.pickup i .moved) m)
  | pickupActed (i : Fin N) (m : TOMarking N M) : allowP i →
      TOReach N M allowP allowD m →
      TOReach N M allowP allowD (incT (.pickup i .acted) m)
  | deliveryMoved (j : Fin M) (m : TOMarking N M) : allowD j →
      TOReach N M allowP allowD m →
      TOReach N M allowP allowD (incT (.delivery j .moved) m)
  | deliveryActed (j : Fin M) (m : TOMarking N M) : allowD j →
      TOReach N M allowP allowD m →
      TOReach N M allowP allowD (incT (.delivery j .acted) m)

/-- The conserved token potential: the order token weighs `N*M` before
the branch and after the final join, `M` on each pickup branch's spine
and `N` on each delivery branch's spine; externally fed places weigh
nothing. -/
def pickupPot {N M : Nat} (m : TOMarking N M) : Nat :=
  ∑ i : Fin N, (m (.pickup i .started) + m (.pickup i .waiting) + m (.pickup i .finished))

def deliveryPot {N M : Nat} (m : TOMarking N M) : Nat :=
  ∑ j : Fin M, (m (.delivery j .started) + m (.delivery j .waiting) + m (.delivery j .finished))

def pot {N M : Nat} (m : TOMarking N M) : Nat :=
  N * M * (m .tStart + m .next) + M * pickupPot m + N * deliveryPot m


/-- After the branch transition and the completion of the first `k`
pickup steps: pickups before `k` rest on their finished place, the
remaining pickups on their started place. -/
def pickStage (N M : Nat) (k : Nat) : TOMarking N M
  | .pickup i .started => if k ≤ i.val then 1 else 0
  | .pickup i .finished => if i.val < k then 1 else 0
  | _ => 0

/-- After the synchronizing transition and the completion of the first
`l` delivery steps. -/
def delStage (N M : Nat) (l : Nat) : TOMarking N M
  | .delivery j .started => if l ≤ j.val then 1 else 0
  | .delivery j .finished => if j.val < l then 1 else 0
  | _ => 0

/-! ## Theorems about the expression evaluator -/

theorem evalRuleExprs_ok_true_iff (ex : Expr → Except PyErr Value) (subs : Subs)
    (es : List Expr) :
    evalRuleExprs ex subs es = .ok true ↔
      ∀ e ∈ es, ∃ v, ex (substResult subs e) = .ok v ∧ truthy v = true := by
  induction es with
  | nil => simp [evalRuleExprs]
  | cons e es ih =>
    simp only [evalRuleExprs, List.mem_cons, bind, Except.bind]
    cases hx : ex (substResult subs e) with
    | error err =>
      simp only [iff_def]
      constructor
      · intro h; cases h
      · intro h
        obtain ⟨v, hv, _⟩ := h e (Or.inl rfl)
        rw [hx] at hv; cases hv
    | ok v =>
      by_cases hv : truthy v = true
      · simp only [hv, if_true, ih]
        constructor
        · intro h e' he'
          cases he' with
          | inl h' => exact ⟨v, by rw [h', hx], hv⟩
          | inr h' => exact h e' h'
        · intro h e' he'
          exact h e' (Or.inr he')
      · simp only [Bool.not_eq_true] at hv
        simp only [hv, Bool.false_eq_true, if_false]
        constructor
        · intro h; cases h
        · intro h
          obtain ⟨v', hv', htv'⟩ := h e (Or.inl rfl)
          rw [hx] at hv'
          cases hv'
          rw [hv] at htv'
          cases htv'

/-- C4.  Rule invocation: (1) the call's arguments are bound to the
rule's declared parameters positionally in declaration order, with the
declared default standing in for every omitted trailing argument; (2) the
bound values are substituted textually into every expression body, and
the call evaluates true exactly when every substituted body evaluates
true; (3) in the scenario `isHeavy(weight=100)` with body `weight > 50`,
a call with no arguments evaluates true and a call with argument `10`
evaluates false. -/
theorem rule_invocation_binds_positionally_and_conjoins
    (params : List (String × Value)) (args : List Value)
    (i : Nat) (hi : i < params.length)
    (instances : Instances) (rules : Rules) (fuel : Nat)
    (name : String) (args' : List Value) (rule : RuleDef)
    (hrule : rules.lookup name = some rule) :
    ((bindParams params args).get ⟨i, by simpa [bindParams] using hi⟩ =
      ((params.get ⟨i, hi⟩).1,
        if h : i < args.length then args.get ⟨i, h⟩ else (params.get ⟨i, hi⟩).2)) ∧
    (evaluateRule instances rules fuel name args' = .ok true ↔
      ∀ e ∈ rule.expressions, ∃ v,
        execute instances rules fuel (substResult (subsOfCall rule args') e) = .ok v ∧
        truthy v = true) ∧
    evaluateRule [] scenarioRules 2 "isHeavy" [] = .ok true ∧
    evaluateRule [] scenarioRules 2 "isHeavy" [.int 10] = .ok false := by
  refine ⟨?_, ?_, by rfl, by rfl⟩
  · simp only [bindParams, List.get_eq_getElem, List.getElem_map, List.getElem_enum]
    by_cases h : i < args.length
    · simp [h, List.getD_eq_getElem args _ h]
    · simp [h, List.getD, List.getElem?_eq_none (Nat.le_of_not_lt h)]
  · rw [evaluateRule, evaluateRuleCore, hrule, subsOfCall]
    by_cases hp : rule.parameters.length > 0
    · simp only [hp, if_true]
      exact evalRuleExprs_ok_true_iff _ _ _
    · simp only [hp, if_false]
      exact evalRuleExprs_ok_true_iff _ _ _

theorem rule_invocation_witness :
    ([("isHeavy", isHeavyRule)].lookup "isHeavy" = some isHeavyRule) ∧
    (evaluateRule [] scenarioRules 2 "isHeavy" [] = .ok true) := by
  have h := rule_invocation_binds_positionally_and_conjoins
    [("weight", Value.int 100)] [] 0 (by decide) [] scenarioRules 2 "isHeavy" []
    isHeavyRule (by rfl)
  exact ⟨by rfl, h.2.2.1⟩

/-- C5 counterexample.  The equality operator applied to a number and a
string does not raise: Python's `==` across incompatible types yields
`False`, so this binary expression over type-incompatible operands
evaluates to a result value instead of failing with a TypeMismatch. -/
theorem eq_on_int_and_string_returns_false_not_error :
    execute [] [] 2 (.binOp (.lit (.int 3)) "==" (.str "\"a\"")) = .ok (.bool false) ∧
    ∀ err, execute [] [] 2 (.binOp (.lit (.int 3)) "==" (.str "\"a\"")) ≠ .error err := by
  refine ⟨by rfl, ?_⟩
  intro err h
  rw [show execute [] [] 2 (.binOp (.lit (.int 3)) "==" (.str "\"a\"")) =
      .ok (.bool false) by rfl] at h
  cases h

/-- C5 amended.  For an ordered comparison or additive/subtractive
operator over a number and a string (either order), evaluation fails with
a `TypeError` (the TypeMismatch), and the failure propagates to the
immediate caller: through the binary expression, and out of the rule
evaluation loop, never coerced into a result value.  Equality operators
(`==`, `!=`) instead return a boolean across incompatible types, and `*`
over a string and a number is Python string repetition. -/
theorem type_mismatch_raises_and_propagates
    (instances : Instances) (rules : Rules) (fuel : Nat)
    (l r : Expr) (op : String) (bo : BOp)
    (hop : parseOperator op = .ok bo)
    (hbo : bo = .lt ∨ bo = .le ∨ bo = .gt ∨ bo = .ge ∨ bo = .add ∨ bo = .sub)
    (n : Int) (s : String)
    (ex : Expr → Except PyErr Value) (subs : Subs) (es : List Expr) (e : Expr)
    (err : PyErr) (herr : ex (substResult subs e) = .error err) :
    (execute instances rules fuel l = .ok (.int n) →
      execute instances rules fuel r = .ok (.str s) →
      ∃ msg, execute instances rules (fuel + 1) (.binOp l op r) =
        .error (.typeError msg)) ∧
    (execute instances rules fuel l = .ok (.str s) →
      execute instances rules fuel r = .ok (.int n) →
      ∃ msg, execute instances rules (fuel + 1) (.binOp l op r) =
        .error (.typeError msg)) ∧
    (∀ errl, execute instances rules fuel l = .error errl →
      execute instances rules (fuel + 1) (.binOp l op r) = .error errl) ∧
    evalRuleExprs ex subs (e :: es) = .error err := by
  refine ⟨?_, ?_, ?_, ?_⟩
  · intro hl hr
    rw [show execute instances rules (fuel + 1) (.binOp l op r) = _ from rfl]
    simp only [execute, hop, hl, hr, bind, Except.bind]
    rcases hbo with h | h | h | h | h | h <;> subst h <;>
      exact ⟨_, rfl⟩
  · intro hl hr
    simp only [execute, hop, hl, hr, bind, Except.bind]
    rcases hbo with h | h | h | h | h | h <;> subst h <;>
      exact ⟨_, rfl⟩
  · intro errl hl
    simp only [execute, hop, hl, bind, Except.bind]
  · simp only [evalRuleExprs, herr, bind, Except.bind]

theorem type_mismatch_witness :
    (parseOperator "<" = .ok .lt) ∧
    ((fun e => execute [] [] 1 e) (substResult [] (.binOp (.lit (.int 0)) "?" (.lit .none))) =
      .error (.keyError "?")) ∧
    ∃ msg, execute [] [] 2 (.binOp (.lit (.int 3)) "<" (.str "\"a\"")) =
      .error (.typeError msg) := by
  have h := type_mismatch_raises_and_propagates [] [] 1
    (.lit (.int 3)) (.str "\"a\"") "<" .lt (by rfl) (Or.inl rfl) 3 "a"
    (fun e => execute [] [] 1 e) [] [] (.binOp (.lit (.int 0)) "?" (.lit .none))
    (.keyError "?") (by rfl)
  exact ⟨by rfl, by rfl, h.1 (by rfl) (by rfl)⟩

/-! ## Theorems about substitution's in-place effect (C10) -/

theorem substEffect_eq_self_of_no_hit (subs : Subs) (e : Expr)
    (h : hasAttrHit subs e = false) : substEffect subs e = e := by
  induction e with
  | lit v => rfl
  | str s => rfl
  | attr path =>
    cases path with
    | nil => rfl
    | cons x rest =>
      cases x with
      | str s =>
        simp only [hasAttrHit] at h
        cases hl : subs.lookup s with
        | none => simp [substEffect, substHead, hl]
        | some v =>
          rw [hl] at h
          simp only [bne_eq_false_iff_eq] at h
          simp [substEffect, substHead, hl, h]
      | none => rfl
      | int n => rfl
      | bool b => rfl
  | ruleCall n args => rfl
  | unOp op v ih =>
    simp only [hasAttrHit] at h
    simp [substEffect, ih h]
  | paren inner ih =>
    simp only [hasAttrHit] at h
    simp [substEffect, ih h]
  | binOp l op r ihl ihr =>
    simp only [hasAttrHit, Bool.or_eq_false_iff] at h
    simp [substEffect, ihl h.1, ihr h.2]

theorem map_eq_self_mem {α : Type} {f : α → α} {l : List α} (h : l.map f = l) :
    ∀ x ∈ l, f x = x := by
  induction l with
  | nil => intro x hx; cases hx
  | cons a as ih =>
    rw [List.map_cons] at h
    injection h with h1 h2
    intro x hx
    rcases List.mem_cons.mp hx with hh | hh
    · rw [hh]; exact h1
    · exact ih h2 x hh

theorem substEffect_ne_self_of_hit (subs : Subs) (e : Expr)
    (h : hasAttrHit subs e = true) : substEffect subs e ≠ e := by
  induction e with
  | lit v => cases h
  | str s => cases h
  | attr path =>
    cases path with
    | nil => cases h
    | cons x rest =>
      cases x with
      | str s =>
        simp only [hasAttrHit] at h
        cases hl : subs.lookup s with
        | none => rw [hl] at h; cases h
        | some v =>
          rw [hl] at h
          simp only [bne_iff_ne, ne_eq] at h
          simp only [substEffect, substHead, hl, ne_eq, Expr.attr.injEq,
            List.cons.injEq, not_and]
          intro hv
          exact absurd hv h
      | none => cases h
      | int n => cases h
      | bool b => cases h
  | ruleCall n args => cases h
  | unOp op v ih =>
    simp only [hasAttrHit] at h
    simp only [substEffect, ne_eq, Expr.unOp.injEq, true_and]
    exact ih h
  | paren inner ih =>
    simp only [hasAttrHit] at h
    simp only [substEffect, ne_eq, Expr.paren.injEq]
    exact ih h
  | binOp l op r ihl ihr =>
    simp only [hasAttrHit, Bool.or_eq_true] at h
    simp only [substEffect, ne_eq, Expr.binOp.injEq, not_and]
    cases h with
    | inl h => intro hl; exact absurd hl (ihl h)
    | inr h => intro _ _ hr; exact absurd hr (ihr h)

theorem bodiesAfterCall_head_effect (exec1 : Expr → Except PyErr Value) (subs : Subs)
    (e : Expr) (es : List Expr) :
    ∃ tail, bodiesAfterCall exec1 subs (e :: es) = substEffect subs e :: tail := by
  cases hres : exec1 (substResult subs e) with
  | ok w =>
    by_cases hw : truthy w
    · exact ⟨bodiesAfterCall exec1 subs es, by simp [bodiesAfterCall, hres, hw]⟩
    · exact ⟨es, by simp [bodiesAfterCall, hres, hw]⟩
  | error err => exact ⟨es, by simp [bodiesAfterCall, hres]⟩

theorem bodiesAfterCall_eq_self_of_no_hit (exec1 : Expr → Except PyErr Value)
    (subs : Subs) :
    ∀ es : List Expr, (∀ b ∈ es, hasAttrHit subs b = false) →
      bodiesAfterCall exec1 subs es = es
  | [], _ => rfl
  | e :: es, h => by
    have he : substEffect subs e = e :=
      substEffect_eq_self_of_no_hit subs e (h e (List.mem_cons_self e es))
    have hes := bodiesAfterCall_eq_self_of_no_hit exec1 subs es
      (fun b hb => h b (List.mem_cons_of_mem e hb))
    cases hres : exec1 (substResult subs e) with
    | ok w =>
      by_cases hw : truthy w
      · simp [bodiesAfterCall, hres, hw, he, hes]
      · simp [bodiesAfterCall, hres, hw, he]
    | error err => simp [bodiesAfterCall, hres, he]

/-- C10 counterexample.  `evaluate_rule` substitutes each stored body
just before executing its substituted copy and returns at the first body
that evaluates falsy, so a rule whose first body evaluates false keeps a
later body's parameter-headed attribute list un-substituted: the call
leaves every stored expression identical even though a body contains an
attribute list headed by a bound parameter name. -/
theorem substitution_skipped_after_short_circuit :
    hasAttrHit (subsOfCall shortCircuitRule [Value.int 9])
        (Expr.attr [.str "w", .str "x"]) = true ∧
    (Expr.attr [.str "w", .str "x"]) ∈ shortCircuitRule.expressions ∧
    ruleAfterCall [] [] 2 shortCircuitRule [Value.int 9] = shortCircuitRule := by
  exact ⟨rfl, List.mem_cons_of_mem _ (List.mem_cons_self _ _), rfl⟩

/-- C10 amended.  Rule-parameter substitution mutates the rule definition
through attribute-access lists, but only on the bodies `evaluate_rule`'s
loop actually visits: (1) a stored list whose head is a parameter name
bound by the substitution has that head overwritten in place with the
argument value; (2) each body is substituted just before its substituted
copy is executed and the loop returns at the first body evaluating
falsy, so every stored body past that point is untouched; (3) the first
body is always visited, so a call on a rule whose first body contains
such a list leaves the rule's stored expressions changed, and every
later evaluation of the rule sees the substituted value; (4) a later
substitution pass leaves the overwritten head alone once it is no longer
a bound name; (5) an expression containing no such list — whatever its
shape — is rebuilt into fresh structure, and a call on a rule none of
whose bodies contains one leaves the rule definition unchanged. -/
theorem substitution_mutates_attribute_heads_in_place
    (subs subs' subs2 : Subs) (s : String) (rest : List Value) (v : Value)
    (hv : subs.lookup s = some v)
    (instances : Instances) (rules : Rules) (fuel : Nat)
    (rule : RuleDef) (args : List Value) (body : Expr) (tl : List Expr)
    (hbody : rule.expressions = body :: tl)
    (hhit : hasAttrHit (subsOfCall rule args) body = true)
    (exec1 : Expr → Except PyErr Value) (e2 : Expr) (es2 : List Expr) (v2 : Value)
    (hstop : exec1 (substResult subs2 e2) = .ok v2) (hfalsy : truthy v2 = false)
    (hfree : ∀ t, v = .str t → subs'.lookup t = Option.none)
    (e : Expr) (hmiss : hasAttrHit subs e = false)
    (rule2 : RuleDef) (args2 : List Value)
    (hnohit : ∀ b ∈ rule2.expressions,
      hasAttrHit (subsOfCall rule2 args2) b = false) :
    substEffect subs (.attr (.str s :: rest)) = .attr (v :: rest) ∧
    bodiesAfterCall exec1 subs2 (e2 :: es2) = substEffect subs2 e2 :: es2 ∧
    ruleAfterCall instances rules fuel rule args ≠ rule ∧
    substHead subs' (v :: rest) = v :: rest ∧
    substEffect subs e = e ∧
    ruleAfterCall instances rules fuel rule2 args2 = rule2 := by
  refine ⟨?_, ?_, ?_, ?_, substEffect_eq_self_of_no_hit subs e hmiss, ?_⟩
  · simp [substEffect, substHead, hv]
  · simp [bodiesAfterCall, hstop, hfalsy]
  · intro hch
    have hexpr : bodiesAfterCall (execute instances rules fuel)
        (subsOfCall rule args) rule.expressions = rule.expressions :=
      congrArg RuleDef.expressions hch
    rw [hbody] at hexpr
    obtain ⟨tail, htail⟩ := bodiesAfterCall_head_effect
      (execute instances rules fuel) (subsOfCall rule args) body tl
    rw [htail] at hexpr
    injection hexpr with h1 h2
    exact substEffect_ne_self_of_hit (subsOfCall rule args) body hhit h1
  · cases v with
    | str t => simp [substHead, hfree t rfl]
    | none => rfl
    | int n => rfl
    | bool b => rfl
  · show ({ rule2 with expressions :=
        (bodiesAfterCall (execute instances rules fuel) (subsOfCall rule2 args2)
          rule2.expressions) } : RuleDef) = rule2
    rw [bodiesAfterCall_eq_self_of_no_hit (execute instances rules fuel)
      (subsOfCall rule2 args2) rule2.expressions hnohit]

theorem substitution_mutation_witness :
    ([("w", Value.int 9)].lookup "w" = some (Value.int 9)) ∧
    ruleAfterCall [] [] 1
        (RuleDef.mk "r" [("w", Value.none)] [.attr [.str "w", .str "x"]]) [.int 9] ≠
      RuleDef.mk "r" [("w", Value.none)] [.attr [.str "w", .str "x"]] ∧
    ruleAfterCall [] [] 1 (RuleDef.mk "r2" [] [.lit (.int 1)]) [] =
      RuleDef.mk "r2" [] [.lit (.int 1)] := by
  have h := substitution_mutates_attribute_heads_in_place
    [("w", Value.int 9)] [] [] "w" [Value.str "x"] (Value.int 9) (by decide)
    [] [] 1
    (RuleDef.mk "r" [("w", Value.none)] [.attr [.str "w", .str "x"]]) [.int 9]
    (.attr [.str "w", .str "x"]) [] rfl (by decide)
    (fun _ => Except.ok (Value.bool false)) (.lit .none) [] (.bool false) rfl rfl
    (by intro t ht; cases ht) (.lit .none) (by decide)
    (RuleDef.mk "r2" [] [.lit (.int 1)]) []
    (by
      intro b hb
      cases hb with
      | head => rfl
      | tail _ hh => cases hh)
  exact ⟨by decide, h.2.2.1, h.2.2.2.2.2⟩


/-! ## Theorems about the token-flow runtime (C6, C7) -/

theorem evaluatePetriNet_quiescent (net : SNet) (m : Marking)
    (h : net.transitions.find? (enabledB m) = Option.none) :
    ∀ fuel, evaluatePetriNet net fuel m = m
  | 0 => rfl
  | fuel + 1 => by simp [evaluatePetriNet, h]

/-- C6 counterexample.  An event whose task id is absent from the
activation-index cannot be resolved to a place, yet `fire_event` raises a
`KeyError` on the bare dict lookup `self.uuids_per_task[task_uuid]`
instead of returning false. -/
theorem unresolved_event_unknown_task_raises :
    logicFireEvent false ⟨["p"], []⟩ 1 [] (fun _ => 0)
        ⟨"started_by", { task := some "t" }⟩ = .error (.keyError "t") := by rfl

/-- C6 amended.  When the activation-index lookup succeeds but yields a
name that is not a place of the net (for example the empty string the
generator records for an absent gate), `fire_event` returns false and
leaves the marking untouched; but when the index lookup itself fails —
unknown task id, unknown order-step id, unknown status or an unhandled
event kind — the call raises the underlying Python error instead of
returning false. -/
theorem unresolved_event_returns_false_or_raises
    (net : SNet) (fuel : Nat) (upt : UuidsPerTask) (m : Marking)
    (ev : Event) (nm : String)
    (hres : resolveEventPlace upt ev = .ok (.place nm))
    (hnp : nm ∉ net.places)
    (ev' : Event) (err : PyErr)
    (hres' : resolveEventPlace upt ev' = .error err) :
    logicFireEvent false net fuel upt m ev = .ok (m, false) ∧
    logicFireEvent false net fuel upt m ev' = .error err := by
  constructor
  · simp [logicFireEvent, hres, hnp, bind, Except.bind, pure, Except.pure]
  · simp [logicFireEvent, hres', bind, Except.bind]

theorem unresolved_event_witness :
    (resolveEventPlace [("t", [("started_by", .place "")])]
        ⟨"started_by", { task := some "t" }⟩ = .ok (.place "")) ∧
    ("" ∉ (["p"] : List String)) ∧
    (resolveEventPlace [("t", [("started_by", .place "")])]
        ⟨"started_by", { task := some "x" }⟩ = .error (.keyError "x")) ∧
    logicFireEvent false ⟨["p"], []⟩ 1 [("t", [("started_by", .place "")])]
        (fun _ => 0) ⟨"started_by", { task := some "t" }⟩ = .ok (fun _ => 0, false) := by
  have h := unresolved_event_returns_false_or_raises ⟨["p"], []⟩ 1
    [("t", [("started_by", .place "")])] (fun _ => 0)
    ⟨"started_by", { task := some "t" }⟩ "" (by rfl) (by decide)
    ⟨"started_by", { task := some "x" }⟩ (.keyError "x") (by rfl)
  exact ⟨by rfl, by decide, by rfl, h.1⟩

/-- C7 counterexample.  Applying the step's `moved_to_location` event a
second time, after its token was already consumed by the step's
transition, is not a no-op: the moved-to-location place still exists in
the net, so `fire_event` deposits another token there and returns true —
the first call drives the step forward (started and moved tokens
consumed, one token parked in waiting-for-action), the second call
returns true again and raises the moved-to-location count from 0 to 1. -/
theorem second_moved_event_not_a_noop :
    (logicFireEvent false tosNet 5 tosUpt tosM0 movedEvent).map
        (fun r => (r.2, r.1 "ts", r.1 "mov", r.1 "wfa", r.1 "fin")) =
      .ok (true, 0, 0, 1, 0) ∧
    (logicFireEvent false tosNet 5 tosUpt tosM1 movedEvent).map
        (fun r => (r.2, r.1 "mov", r.1 "wfa")) = .ok (true, 1, 1) ∧
    tosM1 "mov" = 0 := by
  exact ⟨by rfl, by rfl, by rfl⟩

/-- C7 amended.  A repeated `moved_to_location` event whose target place
still names a place of the net returns true and adds exactly one token to
that place; when the step's start token is gone no transition becomes
enabled, so the extra token parks there and the marking differs from the
one before the call. -/
theorem second_moved_event_parks_token
    (net : SNet) (fuel : Nat) (upt : UuidsPerTask) (m : Marking)
    (ev : Event) (nm : String)
    (hres : resolveEventPlace upt ev = .ok (.place nm))
    (hmem : nm ∈ net.places)
    (hqui : net.transitions.find? (enabledB (addTokens m nm 1)) = Option.none) :
    logicFireEvent false net fuel upt m ev = .ok (addTokens m nm 1, true) ∧
    (addTokens m nm 1) nm = m nm + 1 := by
  constructor
  · simp [logicFireEvent, hres, hmem, bind, Except.bind, pure, Except.pure,
      evaluatePetriNet_quiescent _ _ hqui]
  · simp [addTokens]

theorem second_moved_event_witness :
    (resolveEventPlace tosUpt movedEvent = .ok (.place "mov")) ∧
    ("mov" ∈ tosNet.places) ∧
    (tosNet.transitions.find? (enabledB (addTokens tosM1 "mov" 1)) = Option.none) ∧
    logicFireEvent false tosNet 3 tosUpt tosM1 movedEvent =
      .ok (addTokens tosM1 "mov" 1, true) := by
  have h := second_moved_event_parks_token tosNet 3 tosUpt tosM1 movedEvent "mov"
    (by rfl) (by decide) (by rfl)
  exact ⟨by rfl, by decide, by rfl, h.1⟩


/-! ## Theorems about the orchestration layer (C3, C8, C9) -/

/-- C3.  Gate round-trip: with an active task whose start gate is
`weight > 50` over instance `I` and whose waiting token sits before the
gate's guard transition, `updateInstance("I", {weight: 60})` mutates the
instance's attributes, stamps its `"time"` attribute, re-evaluates the
gate and fires the synthesized `started_by` event in the same call — the
guard transition consumes the waiting and satisfied tokens and the net
stands past the gate (one token in `D`); `updateInstance("I",
{weight: 10})` updates the attributes but leaves the marking exactly as
it was. -/
theorem update_instance_gate_round_trip (w0 : Int) (tNow : Value) :
    (updateInstance 5 tNow (gateState "T1" gateExpr w0) "I"
        [("weight", .int 60)]).result = some true ∧
    (updateInstance 5 tNow (gateState "T1" gateExpr w0) "I"
        [("weight", .int 60)]).state.marking "D" = 1 ∧
    (updateInstance 5 tNow (gateState "T1" gateExpr w0) "I"
        [("weight", .int 60)]).state.marking "W" = 0 ∧
    (updateInstance 5 tNow (gateState "T1" gateExpr w0) "I"
        [("weight", .int 60)]).state.marking "S" = 0 ∧
    (updateInstance 5 tNow (gateState "T1" gateExpr w0) "I"
        [("weight", .int 60)]).state.instances.lookup "I" =
      some [("weight", .int 60), ("time", tNow)] ∧
    (updateInstance 5 tNow (gateState "T1" gateExpr w0) "I"
        [("weight", .int 10)]).result = some true ∧
    (updateInstance 5 tNow (gateState "T1" gateExpr w0) "I"
        [("weight", .int 10)]).state.marking =
      (gateState "T1" gateExpr w0).marking ∧
    (updateInstance 5 tNow (gateState "T1" gateExpr w0) "I"
        [("weight", .int 10)]).state.instances.lookup "I" =
      some [("weight", .int 10), ("time", tNow)] := by
  exact ⟨rfl, rfl, rfl, rfl, rfl, rfl, rfl, rfl⟩

/-- C8 counterexample.  An instance update whose gate re-evaluation hits
a type-incompatible comparison raises, but it does not leave the system
state unchanged: the instance's attributes were mutated before the sweep,
so after the failed call `weight` holds 60 and `"time"` the new stamp,
not the values from before the call. -/
theorem update_instance_type_error_state_not_unchanged :
    (updateInstance 5 (.int 7) (gateState "T1" gateExprBad 5) "I"
        [("weight", .int 60)]).errorOf =
      some (.typeError "comparison not supported between operand types") ∧
    (updateInstance 5 (.int 7) (gateState "T1" gateExprBad 5) "I"
        [("weight", .int 60)]).state.instances.lookup "I" =
      some [("weight", .int 60), ("time", .int 7)] ∧
    (gateState "T1" gateExprBad 5).instances.lookup "I" =
      some [("weight", .int 5), ("time", .int 0)] := by
  exact ⟨rfl, rfl, rfl⟩

theorem PyOutcome.andThen_instances {α β : Type} (o : PyOutcome α)
    (f : OrchState → α → PyOutcome β) (i : Instances)
    (ho : o.state.instances = i)
    (hf : ∀ st v, st.instances = i → (f st v).state.instances = i) :
    (o.andThen f).state.instances = i := by
  cases o with
  | ok st v => exact hf st v ho
  | raised st e => exact ho

theorem fireIfGate_state_instances (fuel : Nat) (st : OrchState) (g : Option Expr)
    (lastTask : Option String) (mk : String → Event) :
    (fireIfGate fuel st g lastTask mk).state.instances = st.instances := by
  unfold fireIfGate
  split
  · rfl
  · split
    · rfl
    · split
      · split
        · rfl
        · split
          · rfl
          · rfl
      · rfl

theorem taskGateSweep_instances (fuel : Nat) :
    ∀ (ts : List TaskRec) (st : OrchState),
      (taskGateSweep fuel st ts).state.instances = st.instances
  | [], _ => rfl
  | t :: ts, st => by
    simp only [taskGateSweep]
    refine PyOutcome.andThen_instances _ _ st.instances
      (fireIfGate_state_instances fuel st t.startedByExpr (some t.uuid) _) ?_
    intro st1 v h1
    refine PyOutcome.andThen_instances _ _ st.instances ?_ ?_
    · rw [fireIfGate_state_instances fuel st1 t.finishedByExpr (some t.uuid) _]
      exact h1
    · intro st2 v2 h2
      rw [taskGateSweep_instances fuel ts st2]
      exact h2

theorem stepGateSweep_instances (fuel : Nat) (lastTask : Option String) :
    ∀ (ss : List StepRec) (st : OrchState),
      (stepGateSweep fuel lastTask st ss).state.instances = st.instances
  | [], _ => rfl
  | s :: ss, st => by
    simp only [stepGateSweep]
    refine PyOutcome.andThen_instances _ _ st.instances
      (fireIfGate_state_instances fuel st s.startedByExpr lastTask _) ?_
    intro st1 v h1
    refine PyOutcome.andThen_instances _ _ st.instances ?_ ?_
    · rw [fireIfGate_state_instances fuel st1 s.finishedByExpr lastTask _]
      exact h1
    · intro st2 v2 h2
      rw [stepGateSweep_instances fuel lastTask ss st2]
      exact h2

theorem updateInstance_chain (fuel : Nat) (st1 : OrchState) :
    ((taskGateSweep fuel st1 st1.activeTasks).andThen fun st2 _ =>
      (stepGateSweep fuel (st1.activeTasks.getLast?.map TaskRec.uuid) st2
          st2.activeOrderSteps).andThen fun st3 _ =>
      (PyOutcome.ok st3 true)).state.instances = st1.instances := by
  refine PyOutcome.andThen_instances _ _ st1.instances
    (taskGateSweep_instances fuel st1.activeTasks st1) ?_
  intro st2 v h2
  refine PyOutcome.andThen_instances _ _ st1.instances ?_ ?_
  · rw [stepGateSweep_instances fuel _ st2.activeOrderSteps st2]
    exact h2
  · intro st3 v3 h3
    exact h3

theorem updateInstance_instances (fuel : Nat) (tNow : Value) (st : OrchState)
    (name : String) (nv : List (String × Value)) (attrs : Attrs)
    (hlook : st.instances.lookup name = some attrs) :
    (updateInstance fuel tNow st name nv).state.instances =
      dictSet st.instances name (mutatedAttrs tNow attrs nv) := by
  unfold updateInstance
  rw [hlook]
  exact updateInstance_chain fuel
    { st with instances := dictSet st.instances name (mutatedAttrs tNow attrs nv) }

/-- C8 amended.  The evaluation type error aborts the update mid-sweep
and propagates to the caller, but the system state is not left
unchanged: (1) for every call on a known instance — wherever the sweep
fails, if at all — the instance table afterwards holds the mutated
attribute dict, with the fresh `"time"` stamp and the new values written
before any gate is re-evaluated; (2) a gate evaluation error aborts the
sweep at the failing task: the error is re-raised and no later gate is
evaluated or fired; (3) gate events fired earlier in the same sweep keep
their effect: with a satisfiable gate ahead of the failing one, the
raised state carries the advanced marking — a token past the earlier
gate — together with the mutated attributes, so the pre-call marking is
not restored either. -/
theorem update_instance_type_error_aborts_after_mutation :
    (∀ (fuel : Nat) (tNow : Value) (st : OrchState) (name : String)
        (nv : List (String × Value)) (attrs : Attrs),
      st.instances.lookup name = some attrs →
      (updateInstance fuel tNow st name nv).state.instances =
        dictSet st.instances name (mutatedAttrs tNow attrs nv)) ∧
    (∀ (fuel : Nat) (st : OrchState) (t : TaskRec) (ts : List TaskRec)
        (stE : OrchState) (err : PyErr),
      fireIfGate fuel st t.startedByExpr (some t.uuid)
          (fun tu => ⟨"started_by", { task := some tu }⟩) = .raised stE err →
      taskGateSweep fuel st (t :: ts) = .raised stE err) ∧
    (∀ (w0 : Int) (tNow : Value),
      (updateInstance 5 tNow (gateState2 w0) "I" [("weight", .int 60)]).errorOf =
        some (.typeError "comparison not supported between operand types") ∧
      (updateInstance 5 tNow (gateState2 w0) "I"
          [("weight", .int 60)]).state.marking "D" = 1 ∧
      (updateInstance 5 tNow (gateState2 w0) "I"
          [("weight", .int 60)]).state.marking "W" = 0 ∧
      (gateState2 w0).marking "D" = 0 ∧
      (updateInstance 5 tNow (gateState2 w0) "I"
          [("weight", .int 60)]).state.instances.lookup "I" =
        some [("weight", .int 60), ("time", tNow)]) := by
  refine ⟨?_, ?_, ?_⟩
  · intro fuel tNow st name nv attrs hlook
    exact updateInstance_instances fuel tNow st name nv attrs hlook
  · intro fuel st t ts stE err h
    simp only [taskGateSweep]
    rw [h]
    rfl
  · intro w0 tNow
    exact ⟨rfl, rfl, rfl, rfl, rfl⟩

theorem update_instance_abort_witness :
    ((gateState "T1" gateExprBad 5).instances.lookup "I" =
      some [("weight", Value.int 5), ("time", Value.int 0)]) ∧
    (updateInstance 5 (Value.int 7) (gateState "T1" gateExprBad 5) "I"
        [("weight", Value.int 60)]).state.instances =
      dictSet (gateState "T1" gateExprBad 5).instances "I"
        (mutatedAttrs (Value.int 7) [("weight", Value.int 5), ("time", Value.int 0)]
          [("weight", Value.int 60)]) :=
  ⟨rfl, update_instance_type_error_aborts_after_mutation.1 5 (Value.int 7)
    (gateState "T1" gateExprBad 5) "I" [("weight", Value.int 60)]
    [("weight", Value.int 5), ("time", Value.int 0)] rfl⟩

/-- C9.  Raw strings are parsed by arity in the demo loop: two
comma-separated fields become a service/status event (first field the
service uuid, second the event type), three become an
`order_step_update` (order-step uuid, task, status), and any other
string is handed to `Scheduler.fire_event`, which deserializes it as a
pre-serialized event; when the base scheduler reports an event
unresolved and it is an `instance_update`, the update is applied
directly to the named instance and the call returns that update's
result, while a resolved event returns true. -/
theorem fire_event_arity_and_instance_update_fallback :
    (∀ s a b, splitComma s = [a, b] →
      demoDispatch s = .fireStruct ⟨b, { serviceUuid := some a }⟩) ∧
    (∀ s a b c, splitComma s = [a, b, c] →
      demoDispatch s = .fireStruct ⟨"order_step_update",
        { orderStepUuid := some a, task := some b, status := some c }⟩) ∧
    (∀ s, (¬ ∃ a b, splitComma s = [a, b]) → (¬ ∃ a b c, splitComma s = [a, b, c]) →
      demoDispatch s = .fireRaw s) ∧
    (∀ fromJson fuel tNow base (st : OrchState) s ev, fromJson s = some ev →
      schedFireEventStr fromJson fuel tNow base st s =
        schedFireEventWith fuel tNow (base ev st) ev) ∧
    (∀ fromJson fuel tNow base (st : OrchState) s, fromJson s = Option.none →
      schedFireEventStr fromJson fuel tNow base st s = .ok st false) ∧
    (∀ fuel tNow (st : OrchState) ev nm, ev.eventType = "instance_update" →
      ev.data.instanceName = some nm →
      schedFireEventWith fuel tNow (.ok st false) ev =
        updateInstance fuel tNow st nm ev.data.newValues) ∧
    (∀ fuel tNow (st : OrchState) ev,
      schedFireEventWith fuel tNow (.ok st true) ev = .ok st true) := by
  refine ⟨?_, ?_, ?_, ?_, ?_, ?_, ?_⟩
  · intro s a b h
    unfold demoDispatch
    rw [h]
  · intro s a b c h
    unfold demoDispatch
    rw [h]
  · intro s h2 h3
    unfold demoDispatch
    cases hs : splitComma s with
    | nil => rfl
    | cons a rest =>
      cases rest with
      | nil => rfl
      | cons b rest2 =>
        cases rest2 with
        | nil => exact absurd ⟨a, b, hs⟩ h2
        | cons c rest3 =>
          cases rest3 with
          | nil => exact absurd ⟨a, b, c, hs⟩ h3
          | cons d rest4 => rfl
  · intro fromJson fuel tNow base st s ev h
    unfold schedFireEventStr
    rw [h]
  · intro fromJson fuel tNow base st s h
    unfold schedFireEventStr
    rw [h]
  · intro fuel tNow st ev nm hty hnm
    simp [schedFireEventWith, hty, hnm]
  · intro fuel tNow st ev
    simp [schedFireEventWith]

theorem fire_event_arity_witness :
    (splitComma "a,b" = ["a", "b"]) ∧
    demoDispatch "a,b" = .fireStruct ⟨"b", { serviceUuid := some "a" }⟩ := by
  exact ⟨by rfl,
    fire_event_arity_and_instance_update_fallback.1 "a,b" "a" "b" (by rfl)⟩


/-! ## Theorems about order re-entry id minting (C2) -/

theorem lookup_cons {α : Type} (k u : Nat) (w : α) (rest : List (Nat × α)) :
    List.lookup k ((u, w) :: rest) = if k = u then some w else List.lookup k rest := by
  by_cases hk : k = u
  · subst hk; simp [List.lookup]
  · have hb : (k == u) = false := beq_eq_false_iff_ne.mpr hk
    simp [List.lookup, hb, hk]

theorem lookup_mem {α : Type} {l : List (Nat × α)} {k : Nat} {v : α}
    (h : l.lookup k = some v) : (k, v) ∈ l := by
  induction l with
  | nil => cases h
  | cons p rest ih =>
    obtain ⟨u, w⟩ := p
    rw [lookup_cons] at h
    by_cases hk : k = u
    · rw [if_pos hk] at h
      subst hk
      cases Option.some.inj h
      exact List.mem_cons_self _ _
    · rw [if_neg hk] at h
      exact List.mem_cons_of_mem _ (ih h)

theorem lookup_append_of_none {α : Type} {l1 : List (Nat × α)} (l2 : List (Nat × α))
    {k : Nat} (h : l1.lookup k = Option.none) :
    (l1 ++ l2).lookup k = l2.lookup k := by
  induction l1 with
  | nil => rfl
  | cons p rest ih =>
    obtain ⟨u, w⟩ := p
    rw [lookup_cons] at h
    rw [List.cons_append, lookup_cons]
    by_cases hk : k = u
    · rw [if_pos hk] at h; cases h
    · rw [if_neg hk] at h
      rw [if_neg hk]
      exact ih h

theorem lookup_filter_none {α : Type} {d : List (Nat × α)} {k : Nat}
    (P : Nat × α → Bool) (h : d.lookup k = Option.none) :
    (d.filter P).lookup k = Option.none := by
  induction d with
  | nil => rfl
  | cons p rest ih =>
    obtain ⟨u, w⟩ := p
    rw [lookup_cons] at h
    by_cases hk : k = u
    · rw [if_pos hk] at h; cases h
    · rw [if_neg hk] at h
      rw [List.filter_cons]
      cases hP : P (u, w) with
      | true =>
        simp only [if_true]
        rw [lookup_cons, if_neg hk]
        exact ih h
      | false =>
        simp only [Bool.false_eq_true, if_false]
        exact ih h

theorem lookup_filter_ne_self {α : Type} (d : List (Nat × α)) (k : Nat) :
    (d.filter fun kv => kv.1 ≠ k).lookup k = Option.none := by
  induction d with
  | nil => rfl
  | cons p rest ih =>
    obtain ⟨u, w⟩ := p
    rw [List.filter_cons]
    by_cases hu : u = k
    · simp only [hu, ne_eq, not_true_eq_false, decide_False, Bool.false_eq_true, if_false]
      exact ih
    · simp only [ne_eq, hu, not_false_eq_true, decide_True, if_true]
      rw [lookup_cons, if_neg (fun h => hu h.symm)]
      exact ih

theorem dictRelocate_lookup {ε : Type} {d : List (Nat × ε)} {oldId newId : Nat} {v : ε}
    (hv : d.lookup oldId = some v) (hnew : d.lookup newId = Option.none) :
    (dictRelocate d oldId newId).lookup newId = some v ∧
    (dictRelocate d oldId newId).lookup oldId = Option.none := by
  have hne : oldId ≠ newId := by
    intro h; rw [h, hnew] at hv; cases hv
  unfold dictRelocate
  rw [hv]
  constructor
  · rw [lookup_append_of_none _ (lookup_filter_none _ hnew)]
    rw [lookup_cons, if_pos rfl]
  · rw [lookup_append_of_none _ (lookup_filter_ne_self d oldId)]
    rw [lookup_cons, if_neg hne]
    rfl

theorem dictSetK_lookup_self {α : Type} {l : List (Nat × α)} {k : Nat} (v : α)
    (h : (l.lookup k).isSome) : (dictSetK l k v).lookup k = some v := by
  unfold dictSetK
  rw [if_pos h]
  induction l with
  | nil => simp [List.lookup] at h
  | cons p rest ih =>
    obtain ⟨u, w⟩ := p
    rw [lookup_cons] at h
    by_cases hk : k = u
    · rw [List.map_cons, if_pos hk.symm]
      rw [lookup_cons, if_pos rfl]
    · rw [List.map_cons, if_neg (fun h' => hk h'.symm)]
      rw [lookup_cons, if_neg hk]
      rw [if_neg hk] at h
      exact ih h

theorem dictSetK_mem {α : Type} {l : List (Nat × α)} {k : Nat} {v : α} :
    ∀ q ∈ dictSetK l k v, q = (k, v) ∨ q ∈ l := by
  intro q hq
  unfold dictSetK at hq
  split at hq
  · obtain ⟨kv, hkv, hq⟩ := List.mem_map.mp hq
    by_cases hk : kv.1 = k
    · rw [if_pos hk] at hq; exact Or.inl hq.symm
    · rw [if_neg hk] at hq; exact Or.inr (hq ▸ hkv)
  · rcases List.mem_append.mp hq with h | h
    · exact Or.inr h
    · simp only [List.mem_singleton] at h; exact Or.inl h

theorem dictRelocate_mem {ε : Type} {d : List (Nat × ε)} {oldId newId : Nat} :
    ∀ r ∈ dictRelocate d oldId newId, r.1 = newId ∨ r ∈ d := by
  intro r hr
  unfold dictRelocate at hr
  split at hr
  · rcases List.mem_append.mp hr with h | h
    · exact Or.inr (List.mem_filter.mp h).1
    · simp only [List.mem_singleton] at h; exact Or.inl (by rw [h])
  · exact Or.inr hr

theorem replaceFirstStep_mem {steps : List (Nat × String)} {name : String}
    {nid oldId : Nat} {steps' : List (Nat × String)}
    (h : replaceFirstStep steps name nid = some (oldId, steps')) :
    (∀ p ∈ steps', p.1 = nid ∨ p.1 ∈ steps.map Prod.fst) ∧
    oldId ∈ steps.map Prod.fst := by
  induction steps generalizing steps' with
  | nil => cases h
  | cons s rest ih =>
    obtain ⟨u, nm⟩ := s
    by_cases hnm : nm = name
    · rw [replaceFirstStep, if_pos hnm] at h
      simp only [Option.some.injEq, Prod.mk.injEq] at h
      obtain ⟨h1, h2⟩ := h
      subst h1
      subst h2
      constructor
      · intro p hp
        rcases List.mem_cons.mp hp with hh | hh
        · exact Or.inl (by rw [hh])
        · exact Or.inr (by
            rw [List.map_cons]
            exact List.mem_cons_of_mem _ (List.mem_map_of_mem Prod.fst hh))
      · rw [List.map_cons]
        exact List.mem_cons_self _ _
    · rw [replaceFirstStep, if_neg hnm] at h
      cases hrec : replaceFirstStep rest name nid with
      | none => rw [hrec] at h; cases h
      | some pr =>
        obtain ⟨o, r'⟩ := pr
        rw [hrec] at h
        simp only [Option.map_some', Option.some.injEq, Prod.mk.injEq] at h
        obtain ⟨h1, h2⟩ := h
        subst h1
        subst h2
        obtain ⟨ihm, iho⟩ := ih hrec
        constructor
        · intro p hp
          rcases List.mem_cons.mp hp with hh | hh
          · refine Or.inr ?_
            rw [List.map_cons, hh]
            exact List.mem_cons_self _ _
          · rcases ihm p hh with hh' | hh'
            · exact Or.inl hh'
            · exact Or.inr (by rw [List.map_cons]; exact List.mem_cons_of_mem _ hh')
        · rw [List.map_cons]
          exact List.mem_cons_of_mem _ iho

theorem replaceFirstStep_keys_nodup {steps : List (Nat × String)} {name : String}
    {nid oldId : Nat} {steps' : List (Nat × String)}
    (hfresh : nid ∉ steps.map Prod.fst)
    (hnd : (steps.map Prod.fst).Nodup)
    (h : replaceFirstStep steps name nid = some (oldId, steps')) :
    (steps'.map Prod.fst).Nodup := by
  induction steps generalizing steps' with
  | nil => cases h
  | cons s rest ih =>
    obtain ⟨u, nm⟩ := s
    rw [List.map_cons, List.mem_cons, not_or] at hfresh
    rw [List.map_cons, List.nodup_cons] at hnd
    by_cases hnm : nm = name
    · rw [replaceFirstStep, if_pos hnm] at h
      simp only [Option.some.injEq, Prod.mk.injEq] at h
      obtain ⟨h1, h2⟩ := h
      subst h2
      rw [List.map_cons, List.nodup_cons]
      exact ⟨hfresh.2, hnd.2⟩
    · rw [replaceFirstStep, if_neg hnm] at h
      cases hrec : replaceFirstStep rest name nid with
      | none => rw [hrec] at h; cases h
      | some pr =>
        obtain ⟨o, r'⟩ := pr
        rw [hrec] at h
        simp only [Option.map_some', Option.some.injEq, Prod.mk.injEq] at h
        obtain ⟨h1, h2⟩ := h
        subst h1
        subst h2
        rw [List.map_cons, List.nodup_cons]
        refine ⟨?_, ih hfresh.2 hnd.2 hrec⟩
        intro hu
        obtain ⟨p, hp, hpu⟩ := List.mem_map.mp hu
        rcases (replaceFirstStep_mem hrec).1 p hp with hh | hh
        · exact hfresh.1 (by rw [← hpu, hh])
        · exact hnd.1 (hpu ▸ hh)


theorem processStepName_wf {ε : Type} (st st' : LoopState ε) (t : Nat) (name : String)
    (h : processStepName st t name = .ok st') (hwf : st.wf) :
    st'.nextId = st.nextId + 1 ∧ st'.wf ∧
    (∀ k, k ≠ st.nextId → k ∉ st.steps.map Prod.fst → k ∉ st'.steps.map Prod.fst) ∧
    ((st.steps.map Prod.fst).Nodup → (st'.steps.map Prod.fst).Nodup) := by
  obtain ⟨hwf1, hwf2⟩ := hwf
  unfold processStepName at h
  cases hrep : replaceFirstStep st.steps name st.nextId with
  | none => rw [hrep] at h; cases h
  | some pr =>
    obtain ⟨oldId, steps'⟩ := pr
    rw [hrep] at h
    have hmem := replaceFirstStep_mem hrep
    have hsteps' : ∀ p ∈ steps', p.1 < st.nextId + 1 := by
      intro p hp
      rcases hmem.1 p hp with hh | hh
      · rw [hh]; omega
      · obtain ⟨q, hq, hqp⟩ := List.mem_map.mp hh
        have := hwf1 q hq
        omega
    have hnk : ∀ k, k ≠ st.nextId → k ∉ st.steps.map Prod.fst →
        k ∉ steps'.map Prod.fst := by
      intro k hk1 hk2 hmem'
      obtain ⟨p, hp, hpk⟩ := List.mem_map.mp hmem'
      rcases hmem.1 p hp with hh | hh
      · exact hk1 (by rw [← hpk, hh])
      · exact hk2 (hpk ▸ hh)
    have hfresh : st.nextId ∉ st.steps.map Prod.fst := by
      intro hm
      obtain ⟨q, hq, hqk⟩ := List.mem_map.mp hm
      have := hwf1 q hq
      omega
    cases hupt : List.lookup t st.upt with
    | none =>
      rw [hupt] at h
      cases h
      refine ⟨rfl, ⟨hsteps', ?_⟩, hnk, fun hn => replaceFirstStep_keys_nodup hfresh hn hrep⟩
      intro q hq
      obtain ⟨hq1, hq2⟩ := hwf2 q hq
      refine ⟨?_, ?_⟩
      · show q.1 < st.nextId + 1
        omega
      · intro r hr
        show r.1 < st.nextId + 1
        have := hq2 r hr
        omega
    | some d =>
      rw [hupt] at h
      cases h
      refine ⟨rfl, ⟨hsteps', ?_⟩, hnk, fun hn => replaceFirstStep_keys_nodup hfresh hn hrep⟩
      intro q hq
      rcases dictSetK_mem q hq with hh | hh
      · subst hh
        have htd := hwf2 _ (lookup_mem hupt)
        refine ⟨?_, ?_⟩
        · show t < st.nextId + 1
          have := htd.1
          omega
        · intro r hr
          show r.1 < st.nextId + 1
          rcases dictRelocate_mem r hr with hr' | hr'
          · omega
          · have := htd.2 r hr'
            omega
      · obtain ⟨hq1, hq2⟩ := hwf2 q hh
        refine ⟨?_, ?_⟩
        · show q.1 < st.nextId + 1
          omega
        · intro r hr
          show r.1 < st.nextId + 1
          have := hq2 r hr
          omega

theorem processStepNames_wf {ε : Type} (t : Nat) :
    ∀ (names : List String) (st st' : LoopState ε),
    processStepNames st t names = .ok st' → st.wf →
    st.nextId ≤ st'.nextId ∧ st'.wf ∧
    (∀ k, k < st.nextId → k ∉ st.steps.map Prod.fst → k ∉ st'.steps.map Prod.fst) ∧
    ((st.steps.map Prod.fst).Nodup → (st'.steps.map Prod.fst).Nodup) := by
  intro names
  induction names with
  | nil =>
    intro st st' h hwf
    cases h
    exact ⟨Nat.le_refl _, hwf, fun _ _ hm => hm, id⟩
  | cons n ns ih =>
    intro st st' h hwf
    rw [processStepNames] at h
    cases hstep : processStepName st t n with
    | error e => rw [hstep] at h; cases h
    | ok st1 =>
      rw [hstep] at h
      simp only [bind, Except.bind] at h
      obtain ⟨hnid, hwf1, hnk, hnd⟩ := processStepName_wf st st1 t n hstep hwf
      obtain ⟨hle, hwf', hnk', hnd'⟩ := ih st1 st' h hwf1
      refine ⟨by omega, hwf', ?_, fun h0 => hnd' (hnd h0)⟩
      intro k hk hmem
      exact hnk' k (by omega) (hnk k (by omega) hmem)

/-- C2.  Activation-id lifecycle of `on_order_started`: (1) the first
loop iteration only clears the flag — the order and its steps keep the
ids assigned at build time; (2) a later iteration mints a fresh id for
the order (distinct from its old id and from every step id in the state)
and fresh ids for its order steps, preserving the supply discipline —
every id in the state stays below the counter, the counter strictly
grows, the order's new id never collides with any step id, and pairwise
distinctness of the step ids is preserved — so across the scheduler's
lifetime no two activations ever share an id; (3) each re-minted step's
activation-index entry is relocated: under its task's dict the entry is
reachable under the fresh id and the old id is gone. -/
theorem on_order_started_mints_fresh_ids_and_relocates (ε : Type) :
    (∀ (st : LoopState ε) (oapi : OrderApiRec),
      oapi.inLoop = true → oapi.firstLoopIteration = true →
      onOrderStarted st oapi = .ok (st, { oapi with firstLoopIteration := false })) ∧
    (∀ (st st' : LoopState ε) (oapi oapi' : OrderApiRec),
      oapi.inLoop = true → oapi.firstLoopIteration = false →
      onOrderStarted st oapi = .ok (st', oapi') → st.wf →
      oapi.uuid < st.nextId →
      oapi'.uuid = st.nextId ∧
      oapi'.uuid ≠ oapi.uuid ∧
      (∀ p ∈ st.steps, p.1 ≠ oapi'.uuid) ∧
      st'.wf ∧
      st.nextId < st'.nextId ∧
      oapi'.uuid ∉ st'.steps.map Prod.fst ∧
      ((st.steps.map Prod.fst).Nodup → (st'.steps.map Prod.fst).Nodup)) ∧
    (∀ (st : LoopState ε) (t : Nat) (name : String) (oldId : Nat)
        (steps' : List (Nat × String)) (d : List (Nat × ε)) (v : ε),
      replaceFirstStep st.steps name st.nextId = some (oldId, steps') →
      st.upt.lookup t = some d →
      d.lookup oldId = some v →
      d.lookup st.nextId = Option.none →
      ∃ st'' d', processStepName st t name = .ok st'' ∧
        st''.upt.lookup t = some d' ∧
        d'.lookup st.nextId = some v ∧
        d'.lookup oldId = Option.none) := by
  refine ⟨?_, ?_, ?_⟩
  · intro st oapi h1 h2
    simp [onOrderStarted, h1, h2]
  · intro st st' oapi oapi' h1 h2 h hwf hid
    rw [onOrderStarted] at h
    rw [h1] at h
    rw [h2] at h
    simp only [if_true, Bool.false_eq_true, if_false] at h
    cases hps : processStepNames { st with nextId := st.nextId + 1 } oapi.taskUuid
        (oapi.pickupNames ++ oapi.deliveryNames) with
    | error e => rw [hps] at h; cases h
    | ok s =>
      rw [hps] at h
      simp only [Except.map, Except.ok.injEq, Prod.mk.injEq] at h
      obtain ⟨hs, hoa⟩ := h
      subst hs
      have hwf1 : ({ st with nextId := st.nextId + 1 } : LoopState ε).wf := by
        obtain ⟨hw1, hw2⟩ := hwf
        constructor
        · intro p hp
          show p.1 < st.nextId + 1
          have := hw1 p hp
          omega
        · intro q hq
          obtain ⟨hq1, hq2⟩ := hw2 q hq
          refine ⟨?_, ?_⟩
          · show q.1 < st.nextId + 1
            omega
          · intro r hr
            show r.1 < st.nextId + 1
            have := hq2 r hr
            omega
      obtain ⟨hle, hwf', hnk, hnd⟩ := processStepNames_wf oapi.taskUuid _ _ _ hps hwf1
      have hle' : st.nextId + 1 ≤ s.nextId := hle
      have hnk' : ∀ k, k < st.nextId + 1 → k ∉ st.steps.map Prod.fst →
          k ∉ s.steps.map Prod.fst := hnk
      have hnd' : (st.steps.map Prod.fst).Nodup → (s.steps.map Prod.fst).Nodup := hnd
      refine ⟨by rw [← hoa], ?_, ?_, hwf', by omega, ?_, hnd'⟩
      · rw [← hoa]
        show st.nextId ≠ oapi.uuid
        omega
      · intro p hp
        rw [← hoa]
        show p.1 ≠ st.nextId
        have := hwf.1 p hp
        omega
      · rw [← hoa]
        show st.nextId ∉ s.steps.map Prod.fst
        refine hnk' st.nextId (by omega) ?_
        intro hm
        obtain ⟨q, hq, hqk⟩ := List.mem_map.mp hm
        have := hwf.1 q hq
        omega
  · intro st t name oldId steps' d v hrep hupt hv hnew
    refine ⟨{ steps := steps',
              upt := dictSetK st.upt t (dictRelocate d oldId st.nextId),
              nextId := st.nextId + 1 },
            dictRelocate d oldId st.nextId, ?_, ?_, ?_, ?_⟩
    · rw [processStepName, hrep, hupt]
    · show List.lookup t (dictSetK st.upt t (dictRelocate d oldId st.nextId)) = _
      exact dictSetK_lookup_self _ (by rw [hupt]; rfl)
    · exact (dictRelocate_lookup hv hnew).1
    · exact (dictRelocate_lookup hv hnew).2

theorem on_order_started_witness :
    (onOrderStarted (ε := Nat) ⟨[(0, "p1"), (1, "d1")], [(2, [(0, 77), (1, 88)])], 3⟩
        ⟨2, true, false, 2, ["p1"], ["d1"]⟩ =
      .ok (⟨[(4, "p1"), (5, "d1")], [(2, [(4, 77), (5, 88)])], 6⟩,
           ⟨3, true, false, 2, ["p1"], ["d1"]⟩)) ∧
    ((⟨3, true, false, 2, ["p1"], ["d1"]⟩ : OrderApiRec).uuid = 3) ∧
    ((⟨3, true, false, 2, ["p1"], ["d1"]⟩ : OrderApiRec).uuid ≠
      (⟨2, true, false, 2, ["p1"], ["d1"]⟩ : OrderApiRec).uuid) := by
  have h := (on_order_started_mints_fresh_ids_and_relocates Nat).2.1
    ⟨[(0, "p1"), (1, "d1")], [(2, [(0, 77), (1, 88)])], 3⟩
    ⟨[(4, "p1"), (5, "d1")], [(2, [(4, 77), (5, 88)])], 6⟩
    ⟨2, true, false, 2, ["p1"], ["d1"]⟩
    ⟨3, true, false, 2, ["p1"], ["d1"]⟩
    rfl rfl (by rfl) ⟨by decide, by decide⟩ (by decide)
  exact ⟨by rfl, h.1, h.2.1⟩


/-! ## Theorems about the transport-order barrier (C1) -/

theorem barrier_invariant {N M : Nat} (hM : 0 < M) (i0 : Fin N) :
    ∀ m, TOReach N M (fun i => i ≠ i0) (fun _ => False) m →
      m (.pickup i0 .acted) = 0 ∧ m (.pickup i0 .finished) = 0 ∧
      (∀ j s, m (.delivery j s) = 0) ∧ m .next = 0 := by
  intro m h
  induction h with
  | init => exact ⟨rfl, rfl, fun j s => by cases s <;> rfl, rfl⟩
  | fire t m hr hen ih =>
    obtain ⟨ih1, ih2, ih3, ih4⟩ := ih
    cases t with
    | branch =>
      refine ⟨?_, ?_, fun j s => ?_, ?_⟩ <;>
        simp [fireT, pre, post, ih1, ih2, ih3, ih4]
    | pFirst i =>
      refine ⟨?_, ?_, fun j s => ?_, ?_⟩ <;>
        simp [fireT, pre, post, ih1, ih2, ih3, ih4]
    | pLast i =>
      by_cases hi : i = i0
      · subst hi
        have := hen (.pickup i .acted)
        simp [pre] at this
        omega
      · refine ⟨?_, ?_, fun j s => ?_, ?_⟩ <;>
          simp [fireT, pre, post, hi, ih1, ih2, ih3, ih4]
    | sync =>
      have := hen (.pickup i0 .finished)
      simp [pre] at this
      omega
    | dFirst j =>
      have := hen (.delivery j .started)
      simp [pre, ih3 j .started] at this
    | dLast j =>
      have := hen (.delivery j .waiting)
      simp [pre, ih3 j .waiting] at this
    | final =>
      have := hen (.delivery ⟨0, hM⟩ .finished)
      simp [pre, ih3 ⟨0, hM⟩ .finished] at this
  | pickupMoved i m hA hr ih =>
    obtain ⟨ih1, ih2, ih3, ih4⟩ := ih
    exact ⟨by simp [incT, ih1], by simp [incT, ih2],
      fun j s => by simp [incT, ih3 j s], by simp [incT, ih4]⟩
  | pickupActed i m hA hr ih =>
    obtain ⟨ih1, ih2, ih3, ih4⟩ := ih
    have hne : i0 ≠ i := fun h => hA h.symm
    exact ⟨by simp [incT, hne, ih1], by simp [incT, ih2],
      fun j s => by simp [incT, ih3 j s], by simp [incT, ih4]⟩
  | deliveryMoved j m hA hr ih => exact hA.elim
  | deliveryActed j m hA hr ih => exact hA.elim


theorem sum_sub_one {n : Nat} (f : Fin n → Nat) (h : ∀ i, 1 ≤ f i) :
    ∑ i, (f i - 1) = (∑ i, f i) - n := by
  have h2 : ∑ i : Fin n, ((f i - 1) + 1) = ∑ i : Fin n, f i :=
    Finset.sum_congr rfl fun i _ => Nat.sub_add_cancel (h i)
  rw [Finset.sum_add_distrib, Finset.sum_const, Finset.card_univ, Fintype.card_fin,
    smul_eq_mul, mul_one] at h2
  omega

theorem sum_ge_card {n : Nat} (f : Fin n → Nat) (h : ∀ i, 1 ≤ f i) :
    n ≤ ∑ i, f i := by
  calc n = ∑ _i : Fin n, 1 := by
        rw [Finset.sum_const, Finset.card_univ, Fintype.card_fin, smul_eq_mul, mul_one]
    _ ≤ ∑ i, f i := Finset.sum_le_sum fun i _ => h i

theorem pot_reach {N M : Nat} (allowP : Fin N → Prop) (allowD : Fin M → Prop) :
    ∀ m, TOReach N M allowP allowD m → pot m = N * M := by
  intro m h
  induction h with
  | init =>
    simp [pot, pickupPot, deliveryPot, initialTO]
  | fire t m hr hen ih =>
    cases t with
    | branch =>
      have hts : 1 ≤ m .tStart := by have := hen .tStart; simpa [pre] using this
      have hpp : pickupPot (fireT .branch m) = pickupPot m + N := by
        unfold pickupPot
        rw [show ∑ i : Fin N, (fireT TOTrans.branch m (.pickup i .started) +
            fireT TOTrans.branch m (.pickup i .waiting) +
            fireT TOTrans.branch m (.pickup i .finished)) =
          ∑ i : Fin N, ((m (.pickup i .started) + m (.pickup i .waiting) +
            m (.pickup i .finished)) + 1) from
          Finset.sum_congr rfl fun i _ => by simp [fireT, pre, post]; ring]
        rw [Finset.sum_add_distrib, Finset.sum_const, Finset.card_univ,
          Fintype.card_fin, smul_eq_mul, mul_one]
      have hdp : deliveryPot (fireT .branch m) = deliveryPot m :=
        Finset.sum_congr rfl fun j _ => by simp [fireT, pre, post]
      have hts' : fireT TOTrans.branch m .tStart = m .tStart - 1 := by
        simp [fireT, pre, post]
      have hnx : fireT TOTrans.branch m .next = m .next := by simp [fireT, pre, post]
      unfold pot at ih ⊢
      rw [hpp, hdp, hts', hnx]
      obtain ⟨k, hk⟩ := Nat.exists_eq_add_of_le hts
      rw [hk] at ih ⊢
      simp only [Nat.add_sub_cancel_left]
      rw [show N * M * (k + m TOPlace.next) + M * (pickupPot m + N) + N * deliveryPot m =
        N * M * (1 + k + m TOPlace.next) + M * pickupPot m + N * deliveryPot m from by ring]
      exact ih
    | pFirst i =>
      have hw : 1 ≤ m (.pickup i .started) := by
        have := hen (.pickup i .started); simpa [pre] using this
      have hpp : pickupPot (fireT (.pFirst i) m) = pickupPot m := by
        refine Finset.sum_congr rfl fun i' _ => ?_
        by_cases hi : i = i'
        · subst hi
          simp [fireT, pre, post]
          omega
        · simp [fireT, pre, post, hi]
      have hdp : deliveryPot (fireT (.pFirst i) m) = deliveryPot m :=
        Finset.sum_congr rfl fun j _ => by simp [fireT, pre, post]
      have hts : fireT (TOTrans.pFirst i) m .tStart = m .tStart := by simp [fireT, pre, post]
      have hnx : fireT (TOTrans.pFirst i) m .next = m .next := by simp [fireT, pre, post]
      unfold pot at ih ⊢
      rw [hpp, hdp, hts, hnx]
      exact ih
    | pLast i =>
      have hw : 1 ≤ m (.pickup i .waiting) := by
        have := hen (.pickup i .waiting); simpa [pre] using this
      have hpp : pickupPot (fireT (.pLast i) m) = pickupPot m := by
        refine Finset.sum_congr rfl fun i' _ => ?_
        by_cases hi : i = i'
        · subst hi
          simp [fireT, pre, post]
          omega
        · simp [fireT, pre, post, hi]
      have hdp : deliveryPot (fireT (.pLast i) m) = deliveryPot m :=
        Finset.sum_congr rfl fun j _ => by simp [fireT, pre, post]
      have hts : fireT (TOTrans.pLast i) m .tStart = m .tStart := by simp [fireT, pre, post]
      have hnx : fireT (TOTrans.pLast i) m .next = m .next := by simp [fireT, pre, post]
      unfold pot at ih ⊢
      rw [hpp, hdp, hts, hnx]
      exact ih
    | sync =>
      have hfin : ∀ i : Fin N, 1 ≤ m (.pickup i .finished) := by
        intro i; have := hen (.pickup i .finished); simpa [pre] using this
      have hppge : N ≤ pickupPot m :=
        sum_ge_card _ fun i => le_trans (hfin i) (by omega)
      have hpp : pickupPot (fireT .sync m) = pickupPot m - N := by
        unfold pickupPot
        rw [show ∑ i : Fin N, (fireT TOTrans.sync m (.pickup i .started) +
            fireT TOTrans.sync m (.pickup i .waiting) +
            fireT TOTrans.sync m (.pickup i .finished)) =
          ∑ i : Fin N, ((m (.pickup i .started) + m (.pickup i .waiting) +
            m (.pickup i .finished)) - 1) from
          Finset.sum_congr rfl fun i _ => by
            simp [fireT, pre, post]
            have := hfin i
            omega]
        exact sum_sub_one _ fun i => le_trans (hfin i) (by omega)
      have hdp : deliveryPot (fireT .sync m) = deliveryPot m + M := by
        unfold deliveryPot
        rw [show ∑ j : Fin M, (fireT TOTrans.sync m (.delivery j .started) +
            fireT TOTrans.sync m (.delivery j .waiting) +
            fireT TOTrans.sync m (.delivery j .finished)) =
          ∑ j : Fin M, ((m (.delivery j .started) + m (.delivery j .waiting) +
            m (.delivery j .finished)) + 1) from
          Finset.sum_congr rfl fun j _ => by simp [fireT, pre, post]; ring]
        rw [Finset.sum_add_distrib, Finset.sum_const, Finset.card_univ,
          Fintype.card_fin, smul_eq_mul, mul_one]
      have hts : fireT TOTrans.sync m .tStart = m .tStart := by simp [fireT, pre, post]
      have hnx : fireT TOTrans.sync m .next = m .next := by simp [fireT, pre, post]
      unfold pot at ih ⊢
      rw [hpp, hdp, hts, hnx]
      obtain ⟨k, hk⟩ := Nat.exists_eq_add_of_le hppge
      rw [hk] at ih ⊢
      simp only [Nat.add_sub_cancel_left]
      rw [show N * M * (m TOPlace.tStart + m TOPlace.next) + M * k +
          N * (deliveryPot m + M) =
        N * M * (m TOPlace.tStart + m TOPlace.next) + M * (N + k) +
          N * deliveryPot m from by ring]
      exact ih
    | dFirst j =>
      have hw : 1 ≤ m (.delivery j .started) := by
        have := hen (.delivery j .started); simpa [pre] using this
      have hdp : deliveryPot (fireT (.dFirst j) m) = deliveryPot m := by
        refine Finset.sum_congr rfl fun j' _ => ?_
        by_cases hj : j = j'
        · subst hj
          simp [fireT, pre, post]
          omega
        · simp [fireT, pre, post, hj]
      have hpp : pickupPot (fireT (.dFirst j) m) = pickupPot m :=
        Finset.sum_congr rfl fun i _ => by simp [fireT, pre, post]
      have hts : fireT (TOTrans.dFirst j) m .tStart = m .tStart := by simp [fireT, pre, post]
      have hnx : fireT (TOTrans.dFirst j) m .next = m .next := by simp [fireT, pre, post]
      unfold pot at ih ⊢
      rw [hpp, hdp, hts, hnx]
      exact ih
    | dLast j =>
      have hw : 1 ≤ m (.delivery j .waiting) := by
        have := hen (.delivery j .waiting); simpa [pre] using this
      have hdp : deliveryPot (fireT (.dLast j) m) = deliveryPot m := by
        refine Finset.sum_congr rfl fun j' _ => ?_
        by_cases hj : j = j'
        · subst hj
          simp [fireT, pre, post]
          omega
        · simp [fireT, pre, post, hj]
      have hpp : pickupPot (fireT (.dLast j) m) = pickupPot m :=
        Finset.sum_congr rfl fun i _ => by simp [fireT, pre, post]
      have hts : fireT (TOTrans.dLast j) m .tStart = m .tStart := by simp [fireT, pre, post]
      have hnx : fireT (TOTrans.dLast j) m .next = m .next := by simp [fireT, pre, post]
      unfold pot at ih ⊢
      rw [hpp, hdp, hts, hnx]
      exact ih
    | final =>
      have hfin : ∀ j : Fin M, 1 ≤ m (.delivery j .finished) := by
        intro j; have := hen (.delivery j .finished); simpa [pre] using this
      have hdpge : M ≤ deliveryPot m :=
        sum_ge_card _ fun j => le_trans (hfin j) (by omega)
      have hdp : deliveryPot (fireT .final m) = deliveryPot m - M := by
        unfold deliveryPot
        rw [show ∑ j : Fin M, (fireT TOTrans.final m (.delivery j .started) +
            fireT TOTrans.final m (.delivery j .waiting) +
            fireT TOTrans.final m (.delivery j .finished)) =
          ∑ j : Fin M, ((m (.delivery j .started) + m (.delivery j .waiting) +
            m (.delivery j .finished)) - 1) from
          Finset.sum_congr rfl fun j _ => by
            simp [fireT, pre, post]
            have := hfin j
            omega]
        exact sum_sub_one _ fun j => le_trans (hfin j) (by omega)
      have hpp : pickupPot (fireT .final m) = pickupPot m :=
        Finset.sum_congr rfl fun i _ => by simp [fireT, pre, post]
      have hts : fireT TOTrans.final m .tStart = m .tStart := by simp [fireT, pre, post]
      have hnx : fireT TOTrans.final m .next = m .next + 1 := by simp [fireT, pre, post]
      unfold pot at ih ⊢
      rw [hpp, hdp, hts, hnx]
      obtain ⟨k, hk⟩ := Nat.exists_eq_add_of_le hdpge
      rw [hk] at ih ⊢
      simp only [Nat.add_sub_cancel_left]
      rw [show N * M * (m TOPlace.tStart + (m TOPlace.next + 1)) + M * pickupPot m +
          N * k =
        N * M * (m TOPlace.tStart + m TOPlace.next) + M * pickupPot m +
          N * (M + k) from by ring]
      exact ih
  | pickupMoved i m hA hr ih =>
    have hpp : pickupPot (incT (.pickup i .moved) m) = pickupPot m :=
      Finset.sum_congr rfl fun i' _ => by simp [incT]
    have hdp : deliveryPot (incT (.pickup i .moved) m) = deliveryPot m :=
      Finset.sum_congr rfl fun j _ => by simp [incT]
    unfold pot at ih ⊢
    rw [hpp, hdp]
    simpa [incT] using ih
  | pickupActed i m hA hr ih =>
    have hpp : pickupPot (incT (.pickup i .acted) m) = pickupPot m :=
      Finset.sum_congr rfl fun i' _ => by simp [incT]
    have hdp : deliveryPot (incT (.pickup i .acted) m) = deliveryPot m :=
      Finset.sum_congr rfl fun j _ => by simp [incT]
    unfold pot at ih ⊢
    rw [hpp, hdp]
    simpa [incT] using ih
  | deliveryMoved j m hA hr ih =>
    have hpp : pickupPot (incT (.delivery j .moved) m) = pickupPot m :=
      Finset.sum_congr rfl fun i _ => by simp [incT]
    have hdp : deliveryPot (incT (.delivery j .moved) m) = deliveryPot m :=
      Finset.sum_congr rfl fun j' _ => by simp [incT]
    unfold pot at ih ⊢
    rw [hpp, hdp]
    simpa [incT] using ih
  | deliveryActed j m hA hr ih =>
    have hpp : pickupPot (incT (.delivery j .acted) m) = pickupPot m :=
      Finset.sum_congr rfl fun i _ => by simp [incT]
    have hdp : deliveryPot (incT (.delivery j .acted) m) = deliveryPot m :=
      Finset.sum_congr rfl fun j' _ => by simp [incT]
    unfold pot at ih ⊢
    rw [hpp, hdp]
    simpa [incT] using ih

theorem next_le_one {N M : Nat} (hN : 0 < N) (hM : 0 < M)
    (allowP : Fin N → Prop) (allowD : Fin M → Prop) :
    ∀ m, TOReach N M allowP allowD m → m .next ≤ 1 := by
  intro m h
  have hpot := pot_reach allowP allowD m h
  have hNM : 0 < N * M := Nat.mul_pos hN hM
  have h1 : N * M * (m .tStart + m .next) ≤ pot m := by
    unfold pot
    omega
  have h2 : N * M * (m .next) ≤ N * M * (m .tStart + m .next) :=
    Nat.mul_le_mul_left _ (by omega)
  have h3 : N * M * (m .next) ≤ N * M * 1 := by
    rw [mul_one]
    rw [hpot] at h1
    omega
  exact Nat.le_of_mul_le_mul_left h3 hNM


/-- Completing one pickup step from a marking where it stands started:
inject its `moved_to_location` event, fire its first transition, inject
its `action_executed` event, fire its last transition.  Net effect: the
started token moves to the finished place. -/
theorem pickup_complete_reach {N M : Nat} (allowP : Fin N → Prop)
    (allowD : Fin M → Prop) (i : Fin N) (hA : allowP i) {m : TOMarking N M}
    (h : TOReach N M allowP allowD m)
    (hst : m (.pickup i .started) = 1) (hmv : m (.pickup i .moved) = 0)
    (hwt : m (.pickup i .waiting) = 0) (hac : m (.pickup i .acted) = 0) :
    TOReach N M allowP allowD (fun p =>
      if p = .pickup i .started then 0
      else if p = .pickup i .finished then m p + 1 else m p) := by
  have h1 := TOReach.pickupMoved i m hA h
  have hen1 : enabledT (.pFirst i) (incT (.pickup i .moved) m) := by
    intro p
    rcases p with _ | ⟨i', s⟩ | ⟨j', s⟩ | _
    · simp [pre]
    · cases s with
      | started =>
        by_cases hi : i = i'
        · subst hi; simp [pre, incT, hst]
        · simp [pre, hi]
      | moved =>
        by_cases hi : i = i'
        · subst hi; simp [pre, incT]
        · simp [pre, hi]
      | waiting => simp [pre]
      | acted => simp [pre]
      | finished => simp [pre]
    · cases s <;> simp [pre]
    · simp [pre]
  have h2 := TOReach.fire _ _ h1 hen1
  have h3 := TOReach.pickupActed i _ hA h2
  have hen2 : enabledT (.pLast i)
      (incT (.pickup i .acted) (fireT (.pFirst i) (incT (.pickup i .moved) m))) := by
    intro p
    rcases p with _ | ⟨i', s⟩ | ⟨j', s⟩ | _
    · simp [pre]
    · cases s with
      | started => simp [pre]
      | moved => simp [pre]
      | waiting =>
        by_cases hi : i = i'
        · subst hi; simp [pre, incT, fireT, post]
        · simp [pre, hi]
      | acted =>
        by_cases hi : i = i'
        · subst hi; simp [pre, incT]
        · simp [pre, hi]
      | finished => simp [pre]
    · cases s <;> simp [pre]
    · simp [pre]
  have h4 := TOReach.fire _ _ h3 hen2
  have heq : fireT (.pLast i)
      (incT (.pickup i .acted) (fireT (.pFirst i) (incT (.pickup i .moved) m))) =
      (fun p => if p = .pickup i .started then 0
        else if p = .pickup i .finished then m p + 1 else m p) := by
    funext p
    rcases p with _ | ⟨i', s⟩ | ⟨j', s⟩ | _
    · simp [fireT, incT, pre, post]
    · cases s with
      | started =>
        by_cases hi : i = i'
        · subst hi; simp [fireT, incT, pre, post, hst]
        · simp [fireT, incT, pre, post, hi, Ne.symm hi]
      | moved =>
        by_cases hi : i = i'
        · subst hi; simp [fireT, incT, pre, post, hmv]
        · simp [fireT, incT, pre, post, hi, Ne.symm hi]
      | waiting =>
        by_cases hi : i = i'
        · subst hi; simp [fireT, incT, pre, post, hwt]
        · simp [fireT, incT, pre, post, hi, Ne.symm hi]
      | acted =>
        by_cases hi : i = i'
        · subst hi; simp [fireT, incT, pre, post, hac]
        · simp [fireT, incT, pre, post, hi, Ne.symm hi]
      | finished =>
        by_cases hi : i = i'
        · subst hi; simp [fireT, incT, pre, post]
        · simp [fireT, incT, pre, post, hi, Ne.symm hi]
    · cases s <;> simp [fireT, incT, pre, post]
    · simp [fireT, incT, pre, post]
  exact heq ▸ h4


/-- The delivery twin of `pickup_complete_reach`. -/
theorem delivery_complete_reach {N M : Nat} (allowP : Fin N → Prop)
    (allowD : Fin M → Prop) (j : Fin M) (hA : allowD j) {m : TOMarking N M}
    (h : TOReach N M allowP allowD m)
    (hst : m (.delivery j .started) = 1) (hmv : m (.delivery j .moved) = 0)
    (hwt : m (.delivery j .waiting) = 0) (hac : m (.delivery j .acted) = 0) :
    TOReach N M allowP allowD (fun p =>
      if p = .delivery j .started then 0
      else if p = .delivery j .finished then m p + 1 else m p) := by
  have h1 := TOReach.deliveryMoved j m hA h
  have hen1 : enabledT (.dFirst j) (incT (.delivery j .moved) m) := by
    intro p
    rcases p with _ | ⟨i', s⟩ | ⟨j', s⟩ | _
    · simp [pre]
    · cases s <;> simp [pre]
    · cases s with
      | started =>
        by_cases hj : j = j'
        · subst hj; simp [pre, incT, hst]
        · simp [pre, hj]
      | moved =>
        by_cases hj : j = j'
        · subst hj; simp [pre, incT]
        · simp [pre, hj]
      | waiting => simp [pre]
      | acted => simp [pre]
      | finished => simp [pre]
    · simp [pre]
  have h2 := TOReach.fire _ _ h1 hen1
  have h3 := TOReach.deliveryActed j _ hA h2
  have hen2 : enabledT (.dLast j)
      (incT (.delivery j .acted) (fireT (.dFirst j) (incT (.delivery j .moved) m))) := by
    intro p
    rcases p with _ | ⟨i', s⟩ | ⟨j', s⟩ | _
    · simp [pre]
    · cases s <;> simp [pre]
    · cases s with
      | started => simp [pre]
      | moved => simp [pre]
      | waiting =>
        by_cases hj : j = j'
        · subst hj; simp [pre, incT, fireT, post]
        · simp [pre, hj]
      | acted =>
        by_cases hj : j = j'
        · subst hj; simp [pre, incT]
        · simp [pre, hj]
      | finished => simp [pre]
    · simp [pre]
  have h4 := TOReach.fire _ _ h3 hen2
  have heq : fireT (.dLast j)
      (incT (.delivery j .acted) (fireT (.dFirst j) (incT (.delivery j .moved) m))) =
      (fun p => if p = .delivery j .started then 0
        else if p = .delivery j .finished then m p + 1 else m p) := by
    funext p
    rcases p with _ | ⟨i', s⟩ | ⟨j', s⟩ | _
    · simp [fireT, incT, pre, post]
    · cases s <;> simp [fireT, incT, pre, post]
    · cases s with
      | started =>
        by_cases hj : j = j'
        · subst hj; simp [fireT, incT, pre, post, hst]
        · simp [fireT, incT, pre, post, hj, Ne.symm hj]
      | moved =>
        by_cases hj : j = j'
        · subst hj; simp [fireT, incT, pre, post, hmv]
        · simp [fireT, incT, pre, post, hj, Ne.symm hj]
      | waiting =>
        by_cases hj : j = j'
        · subst hj; simp [fireT, incT, pre, post, hwt]
        · simp [fireT, incT, pre, post, hj, Ne.symm hj]
      | acted =>
        by_cases hj : j = j'
        · subst hj; simp [fireT, incT, pre, post, hac]
        · simp [fireT, incT, pre, post, hj, Ne.symm hj]
      | finished =>
        by_cases hj : j = j'
        · subst hj; simp [fireT, incT, pre, post]
        · simp [fireT, incT, pre, post, hj, Ne.symm hj]
    · simp [fireT, incT, pre, post]
  exact heq ▸ h4

theorem pickStage_zero_reach (N M : Nat) :
    TOReach N M (fun _ => True) (fun _ => True) (pickStage N M 0) := by
  have hen : enabledT .branch (initialTO N M) := by
    intro p
    rcases p with _ | ⟨i, s⟩ | ⟨j, s⟩ | _
    · simp [pre, initialTO]
    · cases s <;> simp [pre, initialTO]
    · cases s <;> simp [pre, initialTO]
    · simp [pre, initialTO]
  have h : TOReach N M (fun _ => True) (fun _ => True)
      (fireT .branch (initialTO N M)) :=
    TOReach.fire _ _ TOReach.init hen
  have heq : fireT .branch (initialTO N M) = pickStage N M 0 := by
    funext p
    rcases p with _ | ⟨i, s⟩ | ⟨j, s⟩ | _
    · simp [fireT, pre, post, initialTO, pickStage]
    · cases s <;> simp [fireT, pre, post, initialTO, pickStage]
    · cases s <;> simp [fireT, pre, post, initialTO, pickStage]
    · simp [fireT, pre, post, initialTO, pickStage]
  exact heq ▸ h

theorem pickStage_reach (N M : Nat) : ∀ k, k ≤ N →
    TOReach N M (fun _ => True) (fun _ => True) (pickStage N M k) := by
  intro k
  induction k with
  | zero => intro _; exact pickStage_zero_reach N M
  | succ k ih =>
    intro hk
    have hkN : k < N := hk
    have hcomp := pickup_complete_reach (fun _ => True) (fun _ => True) ⟨k, hkN⟩ trivial
      (ih (Nat.le_of_lt hkN)) (by simp [pickStage]) (by rfl) (by rfl) (by rfl)
    have heq : (fun p => if p = TOPlace.pickup ⟨k, hkN⟩ SPlace.started then 0
        else if p = TOPlace.pickup ⟨k, hkN⟩ SPlace.finished then
          pickStage N M k p + 1 else pickStage N M k p) = pickStage N M (k + 1) := by
      funext p
      rcases p with _ | ⟨i, s⟩ | ⟨j, s⟩ | _
      · simp [pickStage]
      · cases s with
        | started =>
          simp only [pickStage]
          by_cases hik : i = (⟨k, hkN⟩ : Fin N)
          · subst hik
            rw [if_pos rfl]
            show (0 : Nat) = if k + 1 ≤ k then 1 else 0
            rw [if_neg (by omega)]
          · have hv : i.val ≠ k := fun h => hik (Fin.ext h)
            rw [if_neg (by simp [hik]), if_neg (by simp)]
            show (if k ≤ i.val then 1 else 0) = if k + 1 ≤ i.val then 1 else 0
            split_ifs <;> omega
        | finished =>
          simp only [pickStage]
          by_cases hik : i = (⟨k, hkN⟩ : Fin N)
          · subst hik
            rw [if_neg (by simp), if_pos rfl]
            show (if (k : Nat) < k then 1 else 0) + 1 = if k < k + 1 then 1 else 0
            rw [if_neg (by omega), if_pos (by omega)]
          · have hv : i.val ≠ k := fun h => hik (Fin.ext h)
            rw [if_neg (by simp), if_neg (by simp [hik])]
            show (if i.val < k then 1 else 0) = if i.val < k + 1 then 1 else 0
            split_ifs <;> omega
        | moved => simp [pickStage]
        | waiting => simp [pickStage]
        | acted => simp [pickStage]
      · cases s <;> simp [pickStage]
      · simp [pickStage]
    exact heq ▸ hcomp


theorem delStage_zero_reach (N M : Nat) :
    TOReach N M (fun _ => True) (fun _ => True) (delStage N M 0) := by
  have h := pickStage_reach N M N (Nat.le_refl N)
  have hen : enabledT .sync (pickStage N M N) := by
    intro p
    rcases p with _ | ⟨i, s⟩ | ⟨j, s⟩ | _
    · simp [pre]
    · cases s <;> simp [pre, pickStage, Fin.is_lt]
    · cases s <;> simp [pre]
    · simp [pre]
  have h2 : TOReach N M (fun _ => True) (fun _ => True)
      (fireT .sync (pickStage N M N)) :=
    TOReach.fire _ _ h hen
  have heq : fireT .sync (pickStage N M N) = delStage N M 0 := by
    funext p
    rcases p with _ | ⟨i, s⟩ | ⟨j, s⟩ | _
    · simp [fireT, pre, post, pickStage, delStage]
    · cases s <;> simp [fireT, pre, post, pickStage, delStage, Fin.is_lt]
    · cases s <;> simp [fireT, pre, post, pickStage, delStage]
    · simp [fireT, pre, post, pickStage, delStage]
  exact heq ▸ h2

theorem delStage_reach (N M : Nat) : ∀ l, l ≤ M →
    TOReach N M (fun _ => True) (fun _ => True) (delStage N M l) := by
  intro l
  induction l with
  | zero => intro _; exact delStage_zero_reach N M
  | succ l ih =>
    intro hl
    have hlM : l < M := hl
    have hcomp := delivery_complete_reach (fun _ => True) (fun _ => True) ⟨l, hlM⟩ trivial
      (ih (Nat.le_of_lt hlM)) (by simp [delStage]) (by rfl) (by rfl) (by rfl)
    have heq : (fun p => if p = TOPlace.delivery ⟨l, hlM⟩ SPlace.started then 0
        else if p = TOPlace.delivery ⟨l, hlM⟩ SPlace.finished then
          delStage N M l p + 1 else delStage N M l p) = delStage N M (l + 1) := by
      funext p
      rcases p with _ | ⟨i, s⟩ | ⟨j, s⟩ | _
      · simp [delStage]
      · cases s <;> simp [delStage]
      · cases s with
        | started =>
          simp only [delStage]
          by_cases hjl : j = (⟨l, hlM⟩ : Fin M)
          · subst hjl
            rw [if_pos rfl]
            show (0 : Nat) = if l + 1 ≤ l then 1 else 0
            rw [if_neg (by omega)]
          · have hv : j.val ≠ l := fun h => hjl (Fin.ext h)
            rw [if_neg (by simp [hjl]), if_neg (by simp)]
            show (if l ≤ j.val then 1 else 0) = if l + 1 ≤ j.val then 1 else 0
            split_ifs <;> omega
        | finished =>
          simp only [delStage]
          by_cases hjl : j = (⟨l, hlM⟩ : Fin M)
          · subst hjl
            rw [if_neg (by simp), if_pos rfl]
            show (if (l : Nat) < l then 1 else 0) + 1 = if l < l + 1 then 1 else 0
            rw [if_neg (by omega), if_pos (by omega)]
          · have hv : j.val ≠ l := fun h => hjl (Fin.ext h)
            rw [if_neg (by simp), if_neg (by simp [hjl])]
            show (if j.val < l then 1 else 0) = if j.val < l + 1 then 1 else 0
            split_ifs <;> omega
        | moved => simp [delStage]
        | waiting => simp [delStage]
        | acted => simp [delStage]
      · simp [delStage]
    exact heq ▸ hcomp

theorem finalTO_reach (N M : Nat) :
    TOReach N M (fun _ => True) (fun _ => True) (finalTO N M) := by
  have h := delStage_reach N M M (Nat.le_refl M)
  have hen : enabledT .final (delStage N M M) := by
    intro p
    rcases p with _ | ⟨i, s⟩ | ⟨j, s⟩ | _
    · simp [pre]
    · cases s <;> simp [pre]
    · cases s <;> simp [pre, delStage, Fin.is_lt]
    · simp [pre]
  have h2 : TOReach N M (fun _ => True) (fun _ => True)
      (fireT .final (delStage N M M)) :=
    TOReach.fire _ _ h hen
  have heq : fireT .final (delStage N M M) = finalTO N M := by
    funext p
    rcases p with _ | ⟨i, s⟩ | ⟨j, s⟩ | _
    · simp [fireT, pre, post, delStage, finalTO]
    · cases s <;> simp [fireT, pre, post, delStage, finalTO]
    · cases s <;> simp [fireT, pre, post, delStage, finalTO, Fin.is_lt]
    · simp [fireT, pre, post, delStage, finalTO]
  exact heq ▸ h2

/-- C1.  Barrier correctness of the generated transport-order net, for
any numbers `N ≥ 1` of pickup and `M ≥ 1` of delivery steps: (1) as long
as some pickup branch `i0` has received no completion events — in
particular after firing all but one pickup completion — no delivery-step
place holds a token and the order is unfinished, whatever else fired;
(2) firing the last pickup completion and then all `M` delivery
completions finishes the order: the marking with exactly one token past
the final join is reached; (3) in every reachable marking the order has
finished at most once (the final place never holds two tokens), so the
full run finishes the order exactly once. -/
theorem transport_order_barrier_correct (N M : Nat) (hN : 0 < N) (hM : 0 < M)
    (i0 : Fin N) :
    (∀ m, TOReach N M (fun i => i ≠ i0) (fun _ => False) m →
      (∀ j s, m (.delivery j s) = 0) ∧ m .next = 0) ∧
    TOReach N M (fun _ => True) (fun _ => True) (finalTO N M) ∧
    (∀ m, TOReach N M (fun _ => True) (fun _ => True) m → m .next ≤ 1) := by
  refine ⟨fun m h => ?_, finalTO_reach N M, next_le_one hN hM _ _⟩
  obtain ⟨_, _, h3, h4⟩ := barrier_invariant hM i0 m h
  exact ⟨h3, h4⟩

theorem transport_order_barrier_witness :
    (0 < 2 ∧ 0 < 1) ∧
    TOReach 2 1 (fun _ => True) (fun _ => True) (finalTO 2 1) ∧
    finalTO 2 1 .next ≤ 1 := by
  have h := transport_order_barrier_correct 2 1 (by decide) (by decide) ⟨0, by decide⟩
  exact ⟨⟨by decide, by decide⟩, h.2.1, h.2.2 _ h.2.1⟩

end MFPlugin
